import Mathlib

/-!
# Verification of the evolvepy evolutionary-algorithm engine

Shallow embedding of the core of the `evolvepy` repository
(`src/evolvepy/engine.py`, `src/evolvepy/individual.py`,
`src/evolvepy/strategies/{crossover,mutation,parent_selection,survivor_selection}.py`)
together with proofs of the behavioural claims about it.

Modelling conventions:
* Python lists become Lean `List`s; in-place mutation becomes explicit
  state passing.
* Fitness values (Python floats) are modelled as rationals `ℚ`; the
  `numpy` standard deviation (an irrational real in general) is kept
  abstract as a parameter `stdFn` — no claim here depends on its value.
* `raise` becomes `Except`; a function with no `raise` is total.
* Randomness (the `random` module) is threaded explicitly: random draws
  become arguments (oracles), so theorems quantify over all draws.
-/

namespace EvolvePy

/-- `Individual` from `src/evolvepy/individual.py`: genotype + optional
fitness (set to `None` at construction) + age (0 at construction). -/
structure Individual (γ : Type) where
  genotype : γ
  fitness : Option ℚ := none
  age : Nat := 0
deriving Repr, DecidableEq

/-- Sort key used by every `list.sort(key=lambda ind: ind.fitness, ...)`
call in the source.  Python raises on comparing `None` with a float, so
all theorems about sorting carry the hypothesis that every fitness is
set; under that hypothesis `getD 0` is the identity embedding. -/
def fitKey {γ : Type} (ind : Individual γ) : ℚ := ind.fitness.getD 0

/-- `list.sort(key=lambda ind: ind.fitness, reverse=True)`: stable sort
by fitness, descending. -/
def sortByFitnessDesc {γ : Type} (l : List (Individual γ)) : List (Individual γ) :=
  l.mergeSort (fun a b => fitKey b ≤ fitKey a)

section Crossover

variable {α : Type} [DecidableEq α] [Inhabited α]

/-- The fill loop of `OrderedCrossover._create_child`
(`strategies/crossover.py`, the `for _ in range(gen_len)` loop):
walks `parent2` circularly from the read pointer, writing each gene not
in the swath at the write pointer, and stops when the write pointer
reaches `start` or the iteration budget (`fuel = gen_len`) runs out.
`getD _ default` models Python's indexing; indices stay in range. -/
def createChildAux (p2 swath : List α) (start n : Nat) :
    Nat → List (Option α) → Nat → Nat → List (Option α)
  | 0, child, _, _ => child
  | fuel + 1, child, rIdx, wIdx =>
    let gene := p2.getD rIdx default
    let child' := if gene ∈ swath then child else child.set wIdx (some gene)
    let wIdx' := if gene ∈ swath then wIdx else (wIdx + 1) % n
    let rIdx' := (rIdx + 1) % n
    if wIdx' = start then child'
    else createChildAux p2 swath start n fuel child' rIdx' wIdx'

/-- `OrderedCrossover._create_child(parent1_gen, parent2_gen, start, end)`:
copy the swath `parent1_gen[start:end+1]` into a `None`-filled child,
then run the circular fill loop reading from `parent2_gen` at
`(end+1) % gen_len` and writing at `(end+1) % gen_len`. -/
def createChild (p1 p2 : List α) (start e : Nat) : List (Option α) :=
  let n := p1.length
  let swath := (p1.drop start).take (e + 1 - start)
  let child0 := (List.range n).map
    (fun i => if start ≤ i ∧ i ≤ e then some (p1.getD i default) else none)
  createChildAux p2 swath start n n child0 ((e + 1) % n) ((e + 1) % n)

/-- `OrderedCrossover.__call__` on one parent pair in the recombining
branch (`random.random() <= rate`, distinct cut points already ordered
as `start ≤ end`): both children, each with its swath donor. -/
def orderedCrossoverPair (p1 p2 : List α) (start e : Nat) :
    List (Option α) × List (Option α) :=
  (createChild p1 p2 start e, createChild p2 p1 start e)

/-- The `while not visited[current]` loop of `CycleCrossover.__call__`:
marks the cycle through `cur`, assigning children according to the
parity of the current cycle number (`odd = (cycle_num % 2 == 1)`).
The jump is `current_idx = p2_value_to_index[value_in_p1]`, i.e. the
index in `parent2` of the gene `parent1` holds at `current_idx`
(`List.indexOf` models the dict built from `parent2`, which agrees with
it whenever `parent2` has no duplicates).  Python terminates because
every iteration marks a fresh index; `fuel = gen_len + 1` is enough. -/
def cxInner (p1 p2 : List α) (odd : Bool) :
    Nat → Nat → List Bool → List (Option α) → List (Option α) →
    List Bool × List (Option α) × List (Option α)
  | 0, _, visited, c1, c2 => (visited, c1, c2)
  | fuel + 1, cur, visited, c1, c2 =>
    if visited.getD cur false then (visited, c1, c2)
    else
      let visited' := visited.set cur true
      let c1' := c1.set cur (some (if odd then p1.getD cur default else p2.getD cur default))
      let c2' := c2.set cur (some (if odd then p2.getD cur default else p1.getD cur default))
      cxInner p1 p2 odd fuel (p2.indexOf (p1.getD cur default)) visited' c1' c2'

/-- One iteration of the `for idx in range(gen_len)` loop of
`CycleCrossover.__call__`: skip visited indices, otherwise bump
`cycle_num` and trace the new cycle. -/
def cxStep (p1 p2 : List α)
    (st : Nat × List Bool × List (Option α) × List (Option α)) (idx : Nat) :
    Nat × List Bool × List (Option α) × List (Option α) :=
  if st.2.1.getD idx false then st
  else
    let r := cxInner p1 p2 (decide ((st.1 + 1) % 2 = 1)) (p1.length + 1) idx
      st.2.1 st.2.2.1 st.2.2.2
    (st.1 + 1, r.1, r.2.1, r.2.2)

/-- Initial loop state of `CycleCrossover.__call__`: `cycle_num = 0`, no
index visited, both children `None`-filled. -/
def cxInit (n : Nat) : Nat × List Bool × List (Option α) × List (Option α) :=
  (0, List.replicate n false, List.replicate n none, List.replicate n none)

/-- The recombination branch of `CycleCrossover.__call__` for one parent
pair: children start as `None`-filled lists, every index is processed by
the cycle-discovery loop. -/
def cycleCrossoverChildren (p1 p2 : List α) : List (Option α) × List (Option α) :=
  let res := (List.range p1.length).foldl (cxStep p1 p2) (cxInit p1.length)
  (res.2.2.1, res.2.2.2)

/-- The gene the fill loop of `_create_child` reads at its `t`-th
iteration: the read pointer starts at `m = end+1` and advances
circularly, so iteration `t` reads `parent2[(m+t) % n]`. -/
def oxRead (p2 : List α) (m n t : Nat) : α := p2.getD ((m + t) % n) default

/-- The genes the fill loop writes, in write order: the circular walk of
`parent2` starting at `m = end+1`, keeping only genes outside the swath. -/
def oxVals (p2 S : List α) (m n : Nat) : List α :=
  ((List.range n).map (oxRead p2 m n)).filter (fun a => decide (a ∉ S))

/-- Circular offset of position `i` from the first write position
`m % n`: the write pointer reaches `i` after `oxPhi m n i` writes. -/
def oxPhi (m n i : Nat) : Nat := (i + n - m % n) % n

/-- Intended child contents after `j` writes of the fill loop: positions
at circular offset `≥ k` (`k` = number of non-swath positions) are the
swath, offsets `< j` hold the written prefix of `oxVals`, the rest are
still empty. -/
def oxTarget (p1' : Nat → α) (vals : List α) (k m n j i : Nat) : Option α :=
  if k ≤ oxPhi m n i then some (p1' i)
  else if oxPhi m n i < j then some (vals.getD (oxPhi m n i) default)
  else none

/-- The index-jump function of cycle crossover: position `i` is linked to
the position in `parent2` holding `parent1`'s gene at `i`. -/
def cxNext (p1 p2 : List α) (i : Nat) : Nat :=
  p2.indexOf (p1.getD i default)

/-- Reachability along `cxNext` within `n` jumps (for permutations of
length `n` this is exactly "same cycle"). -/
def cxReach (p1 p2 : List α) (n i j : Nat) : Prop :=
  ∃ k < n, (cxNext p1 p2)^[k] i = j

instance (p1 p2 : List α) (n i j : Nat) : Decidable (cxReach p1 p2 n i j) := by
  unfold cxReach; infer_instance

/-- The smallest position in the cycle of `i` — the position at which
the outer loop of `CycleCrossover.__call__` discovers that cycle. -/
def cycleMin (p1 p2 : List α) (n i : Nat) : Nat :=
  ((List.range n).filter (fun j => decide (cxReach p1 p2 n i j))).foldr min i

/-- Discovery-order cycle number (starting at 1): the number of cycle
minima not exceeding the minimum of `i`'s cycle. -/
def cycleNumber (p1 p2 : List α) (n i : Nat) : Nat :=
  ((List.range (cycleMin p1 p2 n i + 1)).filter
    (fun m => decide (cycleMin p1 p2 n m = m))).length

end Crossover

section Mutation

variable {α : Type} [DecidableEq α] [Inhabited α]

/-- The in-place swap of `SwapMutation.__call__`
(`temp = g[idx1]; g[idx1] = g[idx2]; g[idx2] = temp`). -/
def swapOnce (g : List α) (i j : Nat) : List α :=
  (g.set i (g.getD j default)).set j (g.getD i default)

/-- `SwapMutation.__call__` on one offspring individual, the per-candidate
random draws made explicit: `fire` is `random.random() < prob`, `i, j`
the two sampled indices.  Genotypes of length `< 2` are skipped. -/
def swapMutateInd (fire : Bool) (i j : Nat) (ind : Individual (List α)) :
    Individual (List α) :=
  if fire then
    if ind.genotype.length < 2 then ind
    else { ind with genotype := swapOnce ind.genotype i j }
  else ind

/-- `SwapMutation.__call__` over the offspring list; `draws k` holds the
random draws used for the `k`-th individual. -/
def swapMutation (draws : Nat → Bool × Nat × Nat)
    (offspring : List (Individual (List α))) : List (Individual (List α)) :=
  offspring.mapIdx (fun k ind =>
    swapMutateInd (draws k).1 (draws k).2.1 (draws k).2.2 ind)

/-- The in-place inversion of `InversionMutation.__call__`:
`g[start:end+1] = reversed(g[start:end+1])` with `start = min`,
`end = max` of the two sampled indices. -/
def invertOnce (g : List α) (i j : Nat) : List α :=
  let start := min i j
  let e := max i j
  g.take start ++ ((g.drop start).take (e + 1 - start)).reverse ++ g.drop (e + 1)

/-- `InversionMutation.__call__` on one offspring individual with explicit
random draws.  Genotypes of length `< 2` are skipped. -/
def invertMutateInd (fire : Bool) (i j : Nat) (ind : Individual (List α)) :
    Individual (List α) :=
  if fire then
    if ind.genotype.length < 2 then ind
    else { ind with genotype := invertOnce ind.genotype i j }
  else ind

/-- `InversionMutation.__call__` over the offspring list. -/
def inversionMutation (draws : Nat → Bool × Nat × Nat)
    (offspring : List (Individual (List α))) : List (Individual (List α)) :=
  offspring.mapIdx (fun k ind =>
    invertMutateInd (draws k).1 (draws k).2.1 (draws k).2.2 ind)

end Mutation

section Selection

variable {γ : Type}

/-- Python's `max(iterable, key=lambda ind: ind.fitness)`: first maximal
element, `None` marking the empty-sequence error. -/
def pyMax (l : List (Individual γ)) : Option (Individual γ) :=
  match l with
  | [] => none
  | x :: xs => some (xs.foldl (fun b y => if fitKey b < fitKey y then y else b) x)

/-- `TournamentSelection.__init__`: `k <= 0` raises `ValueError`. -/
def tournamentInit (k : Int) : Except String Int :=
  if k ≤ 0 then Except.error "Tournament size k must be greater than 0"
  else Except.ok k

/-- `TournamentSelection.__call__`: empty population short-circuits to
`[]`; otherwise one tournament per population slot.  `random.sample`
raises `ValueError` whenever `k > len(population)`; the sampled
contenders themselves are supplied by the oracle `sample` (one list per
draw), since their choice is random. -/
def tournamentCall (k : Nat) (pop : List (Individual γ))
    (sample : Nat → List (Individual γ)) : Except String (List (Individual γ)) :=
  if pop.length = 0 then Except.ok []
  else
    (List.range pop.length).foldlM
      (fun parents i => do
        if pop.length < k then
          throw "Sample larger than population or is negative"
        match pyMax (sample i) with
        | none => throw "max() arg is an empty sequence"
        | some w => pure (parents ++ [w]))
      ([] : List (Individual γ))

/-- `PlusSelection.__call__`: concatenate, sort descending by fitness,
keep the top `population_size`. -/
def plusSelection (populationSize : Nat)
    (oldPopulation offspring : List (Individual γ)) : List (Individual γ) :=
  (sortByFitnessDesc (oldPopulation ++ offspring)).take populationSize

/-- `CommaSelection.__call__`: raise if `len(offspring) < population_size`
(before sorting), else sort only the offspring and keep the top
`population_size`.  The old population is ignored. -/
def commaSelection (populationSize : Nat)
    (oldPopulation offspring : List (Individual γ)) :
    Except String (List (Individual γ)) :=
  if offspring.length < populationSize then
    Except.error "comma selection requires lambda to be >= mu"
  else
    Except.ok ((sortByFitnessDesc offspring).take populationSize)

/-- `PlusAgeBasedSelection.__call__`: concatenate, drop candidates with
`age > max_age`, sort descending, keep the top `population_size` (no
backfill when fewer remain). -/
def plusAgeBasedSelection (populationSize : Nat) (maxAge : Int)
    (oldPopulation offspring : List (Individual γ)) : List (Individual γ) :=
  let eligible := (oldPopulation ++ offspring).filter
    (fun ind => (ind.age : Int) ≤ maxAge)
  (sortByFitnessDesc eligible).take populationSize

end Selection

section Engine

variable {γ : Type}

/-- The fields of `EvolutionaryAlgorithm.__init__` that the claims
mention (the stored strategy callables are abstracted away).  The
constructor body of the source contains no validation and no `raise`. -/
structure EngineConfig where
  populationSize : Int
  currentGeneration : Nat

/-- `EvolutionaryAlgorithm.__init__` as a fallible constructor: the body
has no `raise` statement, so construction always succeeds, whatever the
`population_size`. -/
def engineInit (populationSize : Int) : Except String EngineConfig :=
  Except.ok { populationSize := populationSize, currentGeneration := 0 }

/-- The mutable engine state threaded through `run`. -/
structure EngineState (γ : Type) where
  population : List (Individual γ)
  bestIndividual : Option (Individual γ)
  currentGeneration : Nat

/-- One step of `_evaluate_population` on one individual: lazily set the
fitness and update the all-time best tracker on strict improvement
(`ind.fitness > self.best_individual.fitness`).  The tracker is only
ever assigned an evaluated individual, so its `fitness` is never `None`
at the comparison; the `none` fallback branch is unreachable. -/
def evalInd (f : γ → ℚ) (best : Option (Individual γ)) (ind : Individual γ) :
    Individual γ × Option (Individual γ) :=
  match ind.fitness with
  | some _ => (ind, best)
  | none =>
    let ind' : Individual γ := { ind with fitness := some (f ind.genotype) }
    let best' :=
      match best with
      | none => some ind'
      | some b =>
        match b.fitness with
        | none => some ind'
        | some bf => if bf < f ind.genotype then some ind' else some b
    (ind', best')

/-- `EvolutionaryAlgorithm._evaluate_population`: evaluate every
individual without a fitness, updating the best-ever tracker. -/
def evalPopulation (f : γ → ℚ) :
    List (Individual γ) → Option (Individual γ) →
    List (Individual γ) × Option (Individual γ)
  | [], best => ([], best)
  | ind :: rest, best =>
    ((evalInd f best ind).1 ::
        (evalPopulation f rest (evalInd f best ind).2).1,
      (evalPopulation f rest (evalInd f best ind).2).2)

/-- The body of the `for gen in ...` loop of `run`, specialized to
`PlusSelection` survivors.  Parent selection and reproduction are
arbitrary injected callables, so the offspring they produce enter as an
arbitrary argument; evaluation, aging (`ind.age += 1` on the live
population) and survivor selection follow the source order. -/
def generationStep (f : γ → ℚ) (populationSize : Nat)
    (st : EngineState γ) (offspring : List (Individual γ)) : EngineState γ :=
  let evaled := evalPopulation f offspring st.bestIndividual
  let aged := st.population.map (fun ind => { ind with age := ind.age + 1 })
  { population := plusSelection populationSize aged evaled.1
    bestIndividual := evaled.2
    currentGeneration := st.currentGeneration + 1 }

/-- Iterated generations of `run` under `PlusSelection`, one offspring
list per generation. -/
def runFrom (f : γ → ℚ) (populationSize : Nat) (st : EngineState γ)
    (offsprings : List (List (Individual γ))) : EngineState γ :=
  offsprings.foldl (generationStep f populationSize) st

/-- Comparison of optional fitness values: `none` (empty tracker, empty
pool) counts as strictly below every value. -/
def obLe : Option ℚ → Option ℚ → Prop
  | none, _ => True
  | some _, none => False
  | some a, some b => a ≤ b

/-- The fitness held by the all-time best tracker. -/
def bestFit (st : EngineState γ) : Option ℚ :=
  st.bestIndividual.bind (·.fitness)

/-- The best fitness present in the live population. -/
def popBestFit (st : EngineState γ) : Option ℚ :=
  (st.population.filterMap (·.fitness)).max?

/-- Every member of the live population carries a fitness value — the
engine establishes this by evaluating before survivor selection. -/
def allEvaluated (st : EngineState γ) : Prop :=
  ∀ ind ∈ st.population, ind.fitness ≠ none

/-- `self.history` of the engine: five parallel append-only lists. -/
structure History where
  generation : List Nat
  best_fitness : List ℚ
  mean_fitness : List ℚ
  std_fitness : List ℚ
  worst_fitness : List ℚ
deriving Repr, DecidableEq

/-- `np.max` on the (nonempty, at every call site) fitness list. -/
def npMax (l : List ℚ) : ℚ := l.foldl max (l.headD 0)

/-- `np.min` on the (nonempty, at every call site) fitness list. -/
def npMin (l : List ℚ) : ℚ := l.foldl min (l.headD 0)

/-- `np.mean`. -/
def npMean (l : List ℚ) : ℚ := l.sum / l.length

/-- `EvolutionaryAlgorithm._update_history_and_log`: no-op when the
population is empty or no individual carries a fitness; otherwise append
the five statistics and call `logger.log_generation(generation, history,
best_in_gen)` (returned as the second component; `none` = not called).
`np.std` computes a float square root, outside this embedding, so the
standard deviation is abstracted as the parameter `stdFn`; no claim
depends on its value. -/
def updateHistoryAndLog (stdFn : List ℚ → ℚ)
    (population : List (Individual γ)) (history : History) (generation : Nat) :
    History × Option (Nat × History × Individual γ) :=
  if population.isEmpty then (history, none)
  else
    let currentFitnesses := population.filterMap (·.fitness)
    if currentFitnesses.isEmpty then (history, none)
    else
      let h' : History :=
        { generation := history.generation ++ [generation]
          best_fitness := history.best_fitness ++ [npMax currentFitnesses]
          mean_fitness := history.mean_fitness ++ [npMean currentFitnesses]
          std_fitness := history.std_fitness ++ [stdFn currentFitnesses]
          worst_fitness := history.worst_fitness ++ [npMin currentFitnesses] }
      match pyMax population with
      | none => (h', none)
      | some bestInGen => (h', some (generation, h', bestInGen))

end Engine

/-! ## General helper lemmas -/

section SortHelpers

variable {γ : Type}

lemma sortByFitnessDesc_perm (l : List (Individual γ)) :
    (sortByFitnessDesc l).Perm l :=
  List.mergeSort_perm l _

lemma sortByFitnessDesc_sorted (l : List (Individual γ)) :
    (sortByFitnessDesc l).Pairwise (fun a b => fitKey b ≤ fitKey a) := by
  have h := @List.sorted_mergeSort (Individual γ)
      (fun a b => decide (fitKey b ≤ fitKey a))
      (by
        intro a b c h1 h2
        simp only [decide_eq_true_eq] at *
        exact le_trans h2 h1)
      (by
        intro a b
        simp only [Bool.or_eq_true, decide_eq_true_eq]
        exact le_total (fitKey b) (fitKey a)) l
  exact h.imp (by intro a b hab; simpa using hab)

/-- Everything beyond the cut of a descending-sorted list is bounded by
everything kept. -/
lemma sortByFitnessDesc_take_drop (l : List (Individual γ)) (n : Nat) :
    ∀ x ∈ (sortByFitnessDesc l).take n, ∀ y ∈ (sortByFitnessDesc l).drop n,
      fitKey y ≤ fitKey x := by
  have h : ((sortByFitnessDesc l).take n ++ (sortByFitnessDesc l).drop n).Pairwise
      (fun a b => fitKey b ≤ fitKey a) := by
    rw [List.take_append_drop]
    exact sortByFitnessDesc_sorted l
  exact (List.pairwise_append.mp h).2.2

end SortHelpers

section IndexHelpers

variable {α : Type} [DecidableEq α] [Inhabited α]

/-- Reduce `x % n` for `x < 2n` to a subtraction, the form `omega` can use. -/
lemma mod_two_mul_cases (x n : Nat) (h : x < 2 * n) :
    x % n = if x < n then x else x - n := by
  split
  · exact Nat.mod_eq_of_lt ‹_›
  · rw [Nat.mod_eq_sub_mod (by omega)]
    exact Nat.mod_eq_of_lt (by omega)

lemma add_mod_eq_iff_of_lt (m i j n : Nat) (hn : 0 < n) (hi : i < n) (hj : j < n) :
    (m + i) % n = (m + j) % n ↔ i = j := by
  have hA : m % n < n := Nat.mod_lt _ hn
  rw [Nat.add_mod m i, Nat.add_mod m j, Nat.mod_eq_of_lt hi, Nat.mod_eq_of_lt hj,
    mod_two_mul_cases (m % n + i) n (by omega),
    mod_two_mul_cases (m % n + j) n (by omega)]
  split <;> split <;> omega

/-- Every list is the table of its own `getD` over `range`. -/
lemma eq_map_range_getD (l : List α) (d : α) :
    l = (List.range l.length).map (fun i => l.getD i d) := by
  apply List.ext_getElem?
  intro t
  rcases lt_or_ge t l.length with h | h
  · rw [List.getElem?_map, List.getElem?_range h, Option.map_some']
    rw [List.getElem?_eq_getElem h, List.getD_eq_getElem?_getD,
      List.getElem?_eq_getElem h]
    rfl
  · rw [List.getElem?_map]
    rw [List.getElem?_eq_none (by simpa using h),
      List.getElem?_eq_none (by simpa using h)]
    rfl

/-- An injective self-map of `{0, …, n-1}` permutes `range n`. -/
lemma map_range_perm_range (e : Nat → Nat) (n : Nat)
    (hmem : ∀ i < n, e i < n)
    (hinj : ∀ i < n, ∀ j < n, e i = e j → i = j) :
    ((List.range n).map e).Perm (List.range n) := by
  have hnd : ((List.range n).map e).Nodup :=
    List.Nodup.map_on
      (by
        intro x hx y hy hxy
        exact hinj x (List.mem_range.mp hx) y (List.mem_range.mp hy) hxy)
      (List.nodup_range n)
  have hsub : ((List.range n).map e).toFinset ⊆ (List.range n).toFinset := by
    intro a ha
    simp only [List.mem_toFinset, List.mem_map, List.mem_range] at *
    obtain ⟨i, hi, rfl⟩ := ha
    exact hmem i hi
  have hfin : ((List.range n).map e).toFinset = (List.range n).toFinset := by
    apply Finset.eq_of_subset_of_card_le hsub
    simp [List.toFinset_card_of_nodup hnd,
      List.toFinset_card_of_nodup (List.nodup_range n)]
  exact List.perm_of_nodup_nodup_toFinset_eq hnd (List.nodup_range n) hfin

/-- Reading a list through a permutation of its index range yields a
permutation of the list. -/
lemma map_range_getD_perm (l : List α) (d : α) (e : Nat → Nat)
    (hmem : ∀ i < l.length, e i < l.length)
    (hinj : ∀ i < l.length, ∀ j < l.length, e i = e j → i = j) :
    ((List.range l.length).map (fun i => l.getD (e i) d)).Perm l := by
  have h1 : (List.range l.length).map (fun i => l.getD (e i) d)
      = ((List.range l.length).map e).map (fun i => l.getD i d) := by
    rw [List.map_map]
    rfl
  rw [h1]
  have h2 := (map_range_perm_range e l.length hmem hinj).map (fun i => l.getD i d)
  refine h2.trans ?_
  rw [← eq_map_range_getD l d]

end IndexHelpers

section OrderedCrossoverProof

variable {α : Type} [DecidableEq α] [Inhabited α]

lemma oxPhi_lt (m n i : Nat) (hn : 0 < n) : oxPhi m n i < n :=
  Nat.mod_lt _ hn

lemma oxPhi_psi (m n j : Nat) (hn : 0 < n) (hj : j < n) :
    oxPhi m n ((m + j) % n) = j := by
  have hA : m % n < n := Nat.mod_lt _ hn
  have h1 : (m + j) % n = (m % n + j) % n := by
    rw [Nat.add_mod, Nat.mod_eq_of_lt hj]
  rw [oxPhi, h1, mod_two_mul_cases (m % n + j) n (by omega)]
  split
  · rw [show m % n + j + n - m % n = j + n by omega, Nat.add_mod_right,
      Nat.mod_eq_of_lt hj]
  · rw [show m % n + j - n + n - m % n = j by omega, Nat.mod_eq_of_lt hj]

lemma oxPsi_phi (m n i : Nat) (hn : 0 < n) (hi : i < n) :
    (m + oxPhi m n i) % n = i := by
  have hA : m % n < n := Nat.mod_lt _ hn
  rw [oxPhi, mod_two_mul_cases (i + n - m % n) n (by omega)]
  split
  · rw [Nat.add_mod, Nat.mod_eq_of_lt (show i + n - m % n < n by omega),
      show m % n + (i + n - m % n) = i + n by omega, Nat.add_mod_right,
      Nat.mod_eq_of_lt hi]
  · rw [Nat.add_mod, Nat.mod_eq_of_lt (show i + n - m % n - n < n by omega),
      show m % n + (i + n - m % n - n) = i by omega, Nat.mod_eq_of_lt hi]

lemma oxVals_length_le_prefix (p2 S : List α) (m n t : Nat) (ht : n ≤ t) :
    (oxVals p2 S m n).length ≤
      (((List.range t).map (oxRead p2 m n)).filter
        (fun a => decide (a ∉ S))).length := by
  have hsplit : List.range t =
      List.range n ++ List.map (fun x => n + x) (List.range (t - n)) := by
    rw [← List.range_add]
    congr 1
    omega
  rw [hsplit, List.map_append, List.filter_append, List.length_append]
  exact Nat.le_add_right _ _

lemma range_split (t n : Nat) (ht : t < n) :
    ∃ rest, List.range n = List.range t ++ t :: rest := by
  have h1 : List.range n =
      List.range (t + 1) ++ List.map (fun x => t + 1 + x) (List.range (n - (t + 1))) := by
    rw [← List.range_add]
    congr 1
    omega
  refine ⟨List.map (fun x => t + 1 + x) (List.range (n - (t + 1))), ?_⟩
  rw [h1, List.range_succ, List.append_assoc]
  rfl

lemma oxVals_getD_eq (p2 S : List α) (m n t : Nat) (ht : t < n)
    (hpass : oxRead p2 m n t ∉ S) :
    (oxVals p2 S m n).getD
      (((List.range t).map (oxRead p2 m n)).filter
        (fun a => decide (a ∉ S))).length default = oxRead p2 m n t := by
  obtain ⟨rest, hsplit⟩ := range_split t n ht
  rw [oxVals, hsplit, List.map_append, List.filter_append, List.map_cons,
    List.filter_cons_of_pos (by simpa using hpass),
    List.getD_eq_getElem?_getD, List.getElem?_append_right (le_refl _), Nat.sub_self]
  simp

/-- Invariant of the fill loop of `_create_child`: starting at read step
`t` with `j` writes done and a child matching `oxTarget · j`, the loop
finishes with a child matching `oxTarget · k` (all `k` fill values
written).  `k` is the number of non-swath positions, `start = ψ k`. -/
lemma ox_loop (p2 S : List α) (p1' : Nat → α) (start m n k : Nat)
    (hn : 0 < n) (hkn : k < n)
    (hvals : (oxVals p2 S m n).length = k)
    (hstart : (m + k) % n = start) :
    ∀ fuel t j c,
      fuel = n - t →
      j = (((List.range t).map (oxRead p2 m n)).filter
        (fun a => decide (a ∉ S))).length →
      j < k →
      c.length = n →
      (∀ i, i < n →
        c.getD i none = oxTarget p1' (oxVals p2 S m n) k m n j i) →
      (createChildAux p2 S start n fuel c ((m + t) % n) ((m + j) % n)).length = n ∧
      (∀ i, i < n →
        (createChildAux p2 S start n fuel c ((m + t) % n) ((m + j) % n)).getD i none
          = oxTarget p1' (oxVals p2 S m n) k m n k i) := by
  intro fuel
  induction fuel with
  | zero =>
    intro t j c hfuel hj hjk _ _
    exfalso
    have ht : n ≤ t := by omega
    have := oxVals_length_le_prefix p2 S m n t ht
    omega
  | succ f ih =>
    intro t j c hfuel hj hjk hlen hc
    have ht : t < n := by omega
    have hr : ((m + t) % n + 1) % n = (m + (t + 1)) % n := by
      rw [Nat.mod_add_mod, Nat.add_assoc]
    by_cases hmem : p2.getD ((m + t) % n) default ∈ S
    · -- skipped gene: nothing written, pointers advance
      have hne : ¬((m + j) % n = start) := by
        rw [← hstart]
        intro hcon
        have := (add_mod_eq_iff_of_lt m j k n hn (by omega) hkn).mp hcon
        omega
      rw [createChildAux]
      simp only [if_pos hmem, if_neg hne, hr]
      have hj' : j = (((List.range (t + 1)).map (oxRead p2 m n)).filter
          (fun a => decide (a ∉ S))).length := by
        rw [List.range_succ, List.map_append, List.filter_append,
          List.length_append, List.map_cons,
          List.filter_cons_of_neg (by simpa [oxRead] using hmem)]
        simpa using hj
      exact ih (t + 1) j c (by omega) hj' hjk hlen hc
    · -- written gene
      have hgene : (oxVals p2 S m n).getD j default =
          p2.getD ((m + t) % n) default := by
        have h := oxVals_getD_eq p2 S m n t ht (by simpa [oxRead] using hmem)
        rw [← hj] at h
        simpa [oxRead] using h
      have hw : ((m + j) % n + 1) % n = (m + (j + 1)) % n := by
        rw [Nat.mod_add_mod, Nat.add_assoc]
      have hlen' : (c.set ((m + j) % n)
          (some (p2.getD ((m + t) % n) default))).length = n := by
        rw [List.length_set]
        exact hlen
      have hctarget : ∀ i, i < n →
          (c.set ((m + j) % n) (some (p2.getD ((m + t) % n) default))).getD i none
            = oxTarget p1' (oxVals p2 S m n) k m n (j + 1) i := by
        intro i hi
        by_cases hieq : i = (m + j) % n
        · subst hieq
          rw [List.getD_eq_getElem?_getD,
            List.getElem?_set_self (by rw [hlen]; exact Nat.mod_lt _ hn)]
          rw [oxTarget, oxPhi_psi m n j hn (by omega)]
          rw [if_neg (by omega), if_pos (by omega)]
          simp only [Option.getD_some, Option.some.injEq]
          exact hgene.symm
        · rw [List.getD_eq_getElem?_getD,
            List.getElem?_set_ne (fun hcon => hieq hcon.symm),
            ← List.getD_eq_getElem?_getD, hc i hi]
          have hphine : oxPhi m n i ≠ j := by
            intro hcon
            apply hieq
            have h := oxPsi_phi m n i hn hi
            rw [hcon] at h
            exact h.symm
          rw [oxTarget, oxTarget]
          by_cases h1 : k ≤ oxPhi m n i
          · rw [if_pos h1, if_pos h1]
          · rw [if_neg h1, if_neg h1]
            by_cases h2 : oxPhi m n i < j
            · rw [if_pos h2, if_pos (by omega)]
            · rw [if_neg h2, if_neg (by omega)]
      by_cases hdone : j + 1 = k
      · rw [createChildAux]
        simp only [if_neg hmem, hw]
        rw [if_pos (by rw [hdone, hstart])]
        refine ⟨hlen', ?_⟩
        intro i hi
        rw [hctarget i hi, hdone]
      · have hne : ¬((m + (j + 1)) % n = start) := by
          rw [← hstart]
          intro hcon
          have := (add_mod_eq_iff_of_lt m (j + 1) k n hn (by omega) hkn).mp hcon
          omega
        rw [createChildAux]
        simp only [if_neg hmem, hw, if_neg hne, hr]
        have hj' : j + 1 = (((List.range (t + 1)).map (oxRead p2 m n)).filter
            (fun a => decide (a ∉ S))).length := by
          rw [List.range_succ, List.map_append, List.filter_append,
            List.length_append, List.map_cons,
            List.filter_cons_of_pos (by simpa [oxRead] using hmem)]
          simpa using hj
        exact ih (t + 1) (j + 1) _ (by omega) hj' (by omega) hlen' hctarget

/-- Positions at circular offset `≥ k` from `end+1` are exactly the
swath positions `start..end`. -/
lemma oxPhi_swath_iff (start e n i : Nat) (hse : start ≤ e) (hen : e < n)
    (hi : i < n) :
    (n - (e + 1 - start) ≤ oxPhi (e + 1) n i) ↔ (start ≤ i ∧ i ≤ e) := by
  rcases Nat.lt_or_ge (e + 1) n with h | h
  · have hA : (e + 1) % n = e + 1 := Nat.mod_eq_of_lt h
    rw [oxPhi, hA, mod_two_mul_cases (i + n - (e + 1)) n (by omega)]
    split <;> omega
  · have he : e + 1 = n := by omega
    have hA : (e + 1) % n = 0 := by rw [he, Nat.mod_self]
    rw [oxPhi, hA, Nat.sub_zero, mod_two_mul_cases (i + n) n (by omega)]
    split <;> omega

/-- `_create_child` always terminates with the fully written child: every
position holds its `oxTarget · k` value (swath gene at offsets `≥ k`,
the `oxPhi`-th fill value elsewhere). -/
lemma createChild_target (p1 p2 : List α) (start e : Nat)
    (hse : start ≤ e) (hen : e < p1.length) (hnd : p1.Nodup)
    (hperm : p2.Perm p1) :
    (createChild p1 p2 start e).length = p1.length ∧
    ∀ i, i < p1.length →
      (createChild p1 p2 start e).getD i none =
        oxTarget (fun i => p1.getD i default)
          (oxVals p2 ((p1.drop start).take (e + 1 - start)) (e + 1) p1.length)
          (p1.length - (e + 1 - start)) (e + 1) p1.length
          (p1.length - (e + 1 - start)) i := by
  have hn : 0 < p1.length := by omega
  have hlen2 : p2.length = p1.length := hperm.length_eq
  have hunfold : createChild p1 p2 start e =
      createChildAux p2 ((p1.drop start).take (e + 1 - start)) start p1.length
        p1.length
        ((List.range p1.length).map
          (fun i => if start ≤ i ∧ i ≤ e then some (p1.getD i default) else none))
        ((e + 1) % p1.length) ((e + 1) % p1.length) := rfl
  by_cases hk0 : p1.length - (e + 1 - start) = 0
  · -- the swath covers the whole genotype: the loop stops immediately
    have hstart0 : start = 0 := by omega
    have he : e + 1 = p1.length := by omega
    subst hstart0
    have hS : (p1.drop 0).take (e + 1 - 0) = p1 := by
      rw [List.drop_zero, Nat.sub_zero, he, List.take_length]
    have hmod : (e + 1) % p1.length = 0 := by rw [he, Nat.mod_self]
    obtain ⟨f, hf⟩ : ∃ f, p1.length = f + 1 :=
      Nat.exists_eq_succ_of_ne_zero (by omega)
    have hg : p2.getD 0 default ∈ p1 := by
      apply hperm.subset
      rw [List.getD_eq_getElem?_getD,
        List.getElem?_eq_getElem (show 0 < p2.length by omega)]
      exact List.getElem_mem _
    have hresult : createChild p1 p2 0 e =
        (List.range p1.length).map
          (fun i => if 0 ≤ i ∧ i ≤ e then some (p1.getD i default) else none) := by
      rw [hunfold, hS, hmod, hf, createChildAux]
      simp only [if_pos hg]
      simp
    rw [hresult]
    constructor
    · simp
    · intro i hi
      rw [List.getD_eq_getElem?_getD, List.getElem?_map, List.getElem?_range hi,
        Option.map_some', Option.getD_some, if_pos ⟨Nat.zero_le i, by omega⟩,
        oxTarget, if_pos (by omega)]
  · -- proper swath: run the loop invariant
    have hloop := ox_loop p2 ((p1.drop start).take (e + 1 - start))
      (fun i => p1.getD i default) start (e + 1) p1.length
      (p1.length - (e + 1 - start)) hn (by omega)
      (by
        -- |oxVals| = k via the permutation decomposition of the reads
        have hq2 : ((List.range p1.length).map
            (oxRead p2 (e + 1) p1.length)).Perm p2 := by
          have h := map_range_getD_perm p2 default
            (fun t => (e + 1 + t) % p2.length)
            (fun i _ => Nat.mod_lt _ (by omega))
            (fun i hib j hjb hij =>
              (add_mod_eq_iff_of_lt (e + 1) i j p2.length (by omega) hib hjb).mp hij)
          rw [hlen2] at h
          have h2 : (fun t => p2.getD ((e + 1 + t) % p1.length) default) =
              oxRead p2 (e + 1) p1.length := by
            funext t
            rw [oxRead]
          rw [← h2]
          exact h
        have hSsub : ((p1.drop start).take (e + 1 - start)).Sublist p1 :=
          (List.take_sublist _ _).trans (List.drop_sublist _ _)
        have hq2nd : ((List.range p1.length).map
            (oxRead p2 (e + 1) p1.length)).Nodup :=
          hq2.nodup_iff.mpr (hperm.nodup_iff.mpr hnd)
        have hfilterS : ((p1.drop start).take (e + 1 - start)).Perm
            (((List.range p1.length).map (oxRead p2 (e + 1) p1.length)).filter
              (fun a => decide (a ∈ (p1.drop start).take (e + 1 - start)))) := by
          apply List.perm_of_nodup_nodup_toFinset_eq
            (hSsub.nodup hnd)
            ((List.filter_sublist _).nodup hq2nd)
          apply Finset.ext
          intro a
          simp only [List.mem_toFinset, List.mem_filter, decide_eq_true_eq]
          constructor
          · intro ha
            exact ⟨(hq2.mem_iff).mpr (hperm.mem_iff.mpr (hSsub.subset ha)), ha⟩
          · intro ha
            exact ha.2
        have happ : ((oxVals p2 ((p1.drop start).take (e + 1 - start))
              (e + 1) p1.length) ++
            ((List.range p1.length).map (oxRead p2 (e + 1) p1.length)).filter
              (fun a => decide (a ∈ (p1.drop start).take (e + 1 - start)))).Perm
            ((List.range p1.length).map (oxRead p2 (e + 1) p1.length)) := by
          have h := List.filter_append_perm
            (fun a => decide (a ∉ (p1.drop start).take (e + 1 - start)))
            ((List.range p1.length).map (oxRead p2 (e + 1) p1.length))
          have hcong : ((List.range p1.length).map
                (oxRead p2 (e + 1) p1.length)).filter
                (fun x => !decide (x ∉ (p1.drop start).take (e + 1 - start))) =
              ((List.range p1.length).map (oxRead p2 (e + 1) p1.length)).filter
                (fun a => decide (a ∈ (p1.drop start).take (e + 1 - start))) := by
            apply List.filter_congr
            intro x _
            simp
          rw [hcong] at h
          exact h
        have h1 := happ.length_eq
        have h2 := hfilterS.length_eq
        have h3 := hq2.length_eq
        have hSlen : ((p1.drop start).take (e + 1 - start)).length =
            e + 1 - start := by
          rw [List.length_take, List.length_drop]
          omega
        rw [List.length_append, List.length_map, List.length_range] at h1
        rw [List.length_map, List.length_range] at h3
        omega)
      (by
        rw [show e + 1 + (p1.length - (e + 1 - start)) = p1.length + start
          from by omega, Nat.add_mod_left, Nat.mod_eq_of_lt (by omega)])
      p1.length 0 0
      ((List.range p1.length).map
        (fun i => if start ≤ i ∧ i ≤ e then some (p1.getD i default) else none))
      (by omega) (by simp) (by omega) (by simp)
      (by
        intro i hi
        rw [List.getD_eq_getElem?_getD, List.getElem?_map, List.getElem?_range hi,
          Option.map_some', Option.getD_some, oxTarget]
        by_cases hcond : start ≤ i ∧ i ≤ e
        · rw [if_pos hcond,
            if_pos ((oxPhi_swath_iff start e p1.length i hse hen hi).mpr hcond)]
        · rw [if_neg hcond,
            if_neg (fun hk =>
              hcond ((oxPhi_swath_iff start e p1.length i hse hen hi).mp hk)),
            if_neg (by omega)])
    rw [hunfold]
    constructor
    · have := hloop.1
      simpa using this
    · intro i hi
      have := hloop.2 i hi
      simpa using this

lemma getElem?_eq_some_getD {β : Type} (l : List β) (d : β) (t : Nat)
    (ht : t < l.length) : l[t]? = some (l.getD t d) := by
  rw [List.getD_eq_getElem?_getD, List.getElem?_eq_getElem ht]
  rfl

/-- The fill values and the swath together are a permutation of the
donor parent, and their lengths add up to the genotype length. -/
lemma oxVals_decomp (p1 p2 S : List α) (m : Nat) (hn : 0 < p1.length)
    (hnd : p1.Nodup) (hperm : p2.Perm p1) (hSsub : S.Sublist p1) :
    ((oxVals p2 S m p1.length) ++ S).Perm p1 ∧
    (oxVals p2 S m p1.length).length + S.length = p1.length := by
  have hlen2 : p2.length = p1.length := hperm.length_eq
  have hq2 : ((List.range p1.length).map (oxRead p2 m p1.length)).Perm p2 := by
    have h := map_range_getD_perm p2 default
      (fun t => (m + t) % p2.length)
      (fun i _ => Nat.mod_lt _ (by omega))
      (fun i hib j hjb hij =>
        (add_mod_eq_iff_of_lt m i j p2.length (by omega) hib hjb).mp hij)
    rw [hlen2] at h
    have h2 : (fun t => p2.getD ((m + t) % p1.length) default) =
        oxRead p2 m p1.length := by
      funext t
      rw [oxRead]
    rw [← h2]
    exact h
  have hq2nd : ((List.range p1.length).map (oxRead p2 m p1.length)).Nodup :=
    hq2.nodup_iff.mpr (hperm.nodup_iff.mpr hnd)
  have hfilterS : S.Perm
      (((List.range p1.length).map (oxRead p2 m p1.length)).filter
        (fun a => decide (a ∈ S))) := by
    apply List.perm_of_nodup_nodup_toFinset_eq (hSsub.nodup hnd)
      ((List.filter_sublist _).nodup hq2nd)
    apply Finset.ext
    intro a
    simp only [List.mem_toFinset, List.mem_filter, decide_eq_true_eq]
    constructor
    · intro ha
      exact ⟨(hq2.mem_iff).mpr (hperm.mem_iff.mpr (hSsub.subset ha)), ha⟩
    · intro ha
      exact ha.2
  have happ : ((oxVals p2 S m p1.length) ++
      ((List.range p1.length).map (oxRead p2 m p1.length)).filter
        (fun a => decide (a ∈ S))).Perm
      ((List.range p1.length).map (oxRead p2 m p1.length)) := by
    have h := List.filter_append_perm (fun a => decide (a ∉ S))
      ((List.range p1.length).map (oxRead p2 m p1.length))
    have hcong : ((List.range p1.length).map (oxRead p2 m p1.length)).filter
          (fun x => !decide (x ∉ S)) =
        ((List.range p1.length).map (oxRead p2 m p1.length)).filter
          (fun a => decide (a ∈ S)) := by
      apply List.filter_congr
      intro x _
      simp
    rw [hcong] at h
    exact h
  constructor
  · exact ((List.Perm.append_left _ hfilterS).trans happ).trans (hq2.trans hperm)
  · have h1 := happ.length_eq
    have h2 := hfilterS.length_eq
    rw [List.length_append, List.length_map, List.length_range] at h1
    omega

/-- C2: for every pair of equal-length (`≥ 2`) parents that are
(duplicate-free) permutations of the same gene set and any cut indices
`start ≤ end < length` with `start ≠ end`, each child built by
`OrderedCrossover._create_child` equals its swath-donor parent on
positions `start..end` and is an everywhere-filled permutation of the
parents' shared gene multiset.  Stated for `createChild p1 p2`, which
covers both children of `__call__` since the hypotheses are symmetric
in the two parents. -/
theorem C2_ordered_crossover_invariant (p1 p2 : List α) (start e : Nat)
    (hn2 : 2 ≤ p1.length) (hse : start ≤ e) (hen : e < p1.length)
    (hsne : start ≠ e) (hnd : p1.Nodup) (hperm : p2.Perm p1) :
    (∀ i, start ≤ i → i ≤ e →
      (createChild p1 p2 start e).getD i none = some (p1.getD i default)) ∧
    ∃ c : List α, createChild p1 p2 start e = c.map some ∧ c.Perm p1 := by
  obtain ⟨hlen, htarget⟩ := createChild_target p1 p2 start e hse hen hnd hperm
  have hn : 0 < p1.length := by omega
  have hSsub : ((p1.drop start).take (e + 1 - start)).Sublist p1 :=
    (List.take_sublist _ _).trans (List.drop_sublist _ _)
  have hSlen : ((p1.drop start).take (e + 1 - start)).length = e + 1 - start := by
    rw [List.length_take, List.length_drop]
    omega
  obtain ⟨hdecomp, hlensum⟩ :=
    oxVals_decomp p1 p2 ((p1.drop start).take (e + 1 - start)) (e + 1) hn hnd
      hperm hSsub
  constructor
  · intro i h1 h2
    have hi : i < p1.length := by omega
    rw [htarget i hi, oxTarget,
      if_pos ((oxPhi_swath_iff start e p1.length i hse hen hi).mpr ⟨h1, h2⟩)]
  · refine ⟨(List.range p1.length).map (fun i =>
      if p1.length - (e + 1 - start) ≤ oxPhi (e + 1) p1.length i
      then p1.getD i default
      else (oxVals p2 ((p1.drop start).take (e + 1 - start))
        (e + 1) p1.length).getD (oxPhi (e + 1) p1.length i) default), ?_, ?_⟩
    · apply List.ext_getElem?
      intro t
      rcases lt_or_ge t p1.length with ht | ht
      · rw [getElem?_eq_some_getD _ none t (by omega), htarget t ht,
          List.getElem?_map, List.getElem?_map, List.getElem?_range ht]
        simp only [Option.map_some']
        rw [oxTarget]
        by_cases hc : p1.length - (e + 1 - start) ≤ oxPhi (e + 1) p1.length t
        · rw [if_pos hc, if_pos hc]
        · rw [if_neg hc, if_pos (Nat.lt_of_not_le hc), if_neg hc]
      · rw [List.getElem?_eq_none (by omega),
          List.getElem?_eq_none (by simp [ht])]
    · have hψ : ((List.range p1.length).map
          (fun j => (e + 1 + j) % p1.length)).Perm (List.range p1.length) :=
        map_range_perm_range _ _ (fun i _ => Nat.mod_lt _ hn)
          (fun i hib j hjb hij =>
            (add_mod_eq_iff_of_lt (e + 1) i j p1.length hn hib hjb).mp hij)
      have hM : ((List.range p1.length).map
            (fun j => (e + 1 + j) % p1.length)).map (fun i =>
          if p1.length - (e + 1 - start) ≤ oxPhi (e + 1) p1.length i
          then p1.getD i default
          else (oxVals p2 ((p1.drop start).take (e + 1 - start))
            (e + 1) p1.length).getD (oxPhi (e + 1) p1.length i) default) =
          (oxVals p2 ((p1.drop start).take (e + 1 - start)) (e + 1) p1.length)
            ++ (p1.drop start).take (e + 1 - start) := by
        rw [List.map_map]
        apply List.ext_getElem?
        intro j
        rcases lt_or_ge j p1.length with hj | hj
        · rw [List.getElem?_map, List.getElem?_range hj, Option.map_some']
          rcases Nat.lt_or_ge j (p1.length - (e + 1 - start)) with hjk | hjk
          · -- fill-value region
            rw [Function.comp_apply, oxPhi_psi (e + 1) p1.length j hn hj,
              if_neg (by omega),
              List.getElem?_append_left (by omega),
              getElem?_eq_some_getD _ default j (by omega)]
          · -- swath region
            have hψj : (e + 1 + j) % p1.length =
                start + (j - (p1.length - (e + 1 - start))) := by
              rw [show e + 1 + j =
                  p1.length + (start + (j - (p1.length - (e + 1 - start))))
                from by omega, Nat.add_mod_left, Nat.mod_eq_of_lt (by omega)]
            rw [Function.comp_apply, hψj,
              if_pos ((oxPhi_swath_iff start e p1.length _ hse hen
                (by omega)).mpr ⟨by omega, by omega⟩),
              List.getElem?_append_right (by omega)]
            rw [List.getElem?_take, if_pos (by omega), List.getElem?_drop,
              getElem?_eq_some_getD _ default _ (by omega)]
            congr 2
            omega
        · rw [List.getElem?_eq_none (by simp [hj]),
            List.getElem?_eq_none (by rw [List.length_append]; omega)]
      have hc : ((oxVals p2 ((p1.drop start).take (e + 1 - start))
            (e + 1) p1.length) ++ (p1.drop start).take (e + 1 - start)).Perm
          ((List.range p1.length).map (fun i =>
            if p1.length - (e + 1 - start) ≤ oxPhi (e + 1) p1.length i
            then p1.getD i default
            else (oxVals p2 ((p1.drop start).take (e + 1 - start))
              (e + 1) p1.length).getD (oxPhi (e + 1) p1.length i) default)) := by
        rw [← hM]
        exact hψ.map _
      exact hc.symm.trans hdecomp

/-- C2 witness: parents `[1,2,3,4]` / `[4,3,2,1]`, cut points 1–2. -/
theorem C2_ordered_crossover_invariant_witness :
    (2 ≤ ([1,2,3,4] : List ℕ).length ∧ 1 ≤ 2 ∧ 2 < ([1,2,3,4] : List ℕ).length ∧
      (1 : ℕ) ≠ 2 ∧ ([1,2,3,4] : List ℕ).Nodup ∧
      ([4,3,2,1] : List ℕ).Perm [1,2,3,4]) ∧
    (createChild [1,2,3,4] [4,3,2,1] 1 2).getD 2 none = some 3 ∧
    ∃ c : List ℕ, createChild [1,2,3,4] [4,3,2,1] 1 2 = c.map some ∧
      c.Perm [1,2,3,4] := by
  refine ⟨⟨by decide, by decide, by decide, by decide, by decide, by decide⟩,
    ?_, ?_⟩
  · have h := (C2_ordered_crossover_invariant [1,2,3,4] [4,3,2,1] 1 2
      (by decide) (by decide) (by decide) (by decide) (by decide) (by decide)).1
      2 (by decide) (by decide)
    simpa using h
  · exact (C2_ordered_crossover_invariant [1,2,3,4] [4,3,2,1] 1 2
      (by decide) (by decide) (by decide) (by decide) (by decide) (by decide)).2

end OrderedCrossoverProof

section CycleCrossoverProof

variable {α : Type} [DecidableEq α] [Inhabited α]

lemma getD_mem (l : List α) (i : Nat) (hi : i < l.length) :
    l.getD i default ∈ l := by
  rw [List.getD_eq_getElem?_getD, List.getElem?_eq_getElem hi]
  exact List.getElem_mem hi

lemma cxNext_lt (p1 p2 : List α) (hperm : p2.Perm p1) {i : Nat}
    (hi : i < p1.length) : cxNext p1 p2 i < p1.length := by
  rw [cxNext, ← hperm.length_eq]
  exact List.indexOf_lt_length.mpr (hperm.mem_iff.mpr (getD_mem p1 i hi))

lemma cxNext_getD (p1 p2 : List α) (hperm : p2.Perm p1) {i : Nat}
    (hi : i < p1.length) :
    p2.getD (cxNext p1 p2 i) default = p1.getD i default := by
  have hmem : p1.getD i default ∈ p2 := hperm.mem_iff.mpr (getD_mem p1 i hi)
  have hlt : p2.indexOf (p1.getD i default) < p2.length :=
    List.indexOf_lt_length.mpr hmem
  rw [cxNext, List.getD_eq_getElem?_getD, List.getElem?_eq_getElem hlt]
  exact List.getElem_indexOf hlt

lemma cxNext_inj (p1 p2 : List α) (hnd : p1.Nodup) (hperm : p2.Perm p1)
    {i j : Nat} (hi : i < p1.length) (hj : j < p1.length)
    (h : cxNext p1 p2 i = cxNext p1 p2 j) : i = j := by
  have h2 : p1.getD i default = p1.getD j default := by
    have h3 := congrArg (fun t => p2.getD t default) h
    simp only at h3
    rwa [cxNext_getD p1 p2 hperm hi, cxNext_getD p1 p2 hperm hj] at h3
  rw [List.getD_eq_getElem?_getD, List.getD_eq_getElem?_getD,
    List.getElem?_eq_getElem hi, List.getElem?_eq_getElem hj] at h2
  exact (hnd.getElem_inj_iff).mp h2

lemma cxNext_inv (p1 p2 : List α) (hnd2 : p2.Nodup) (hperm : p2.Perm p1)
    {i : Nat} (hi : i < p1.length) :
    cxNext p1 p2 (cxNext p2 p1 i) = i := by
  have hi2 : i < p2.length := by rw [hperm.length_eq]; exact hi
  have h1 : p1.getD (cxNext p2 p1 i) default = p2.getD i default :=
    cxNext_getD p2 p1 hperm.symm hi2
  rw [cxNext, h1, List.getD_eq_getElem?_getD, List.getElem?_eq_getElem hi2]
  exact List.indexOf_getElem hnd2 i hi2

lemma cxIter_lt (p1 p2 : List α) (hperm : p2.Perm p1) :
    ∀ (k : Nat) {i : Nat}, i < p1.length →
      (cxNext p1 p2)^[k] i < p1.length := by
  intro k
  induction k with
  | zero => intro i hi; exact hi
  | succ k ih =>
    intro i hi
    rw [Function.iterate_succ_apply]
    exact ih (cxNext_lt p1 p2 hperm hi)

lemma cxIter_inj (p1 p2 : List α) (hnd : p1.Nodup) (hperm : p2.Perm p1) :
    ∀ (k : Nat) {i j : Nat}, i < p1.length → j < p1.length →
      (cxNext p1 p2)^[k] i = (cxNext p1 p2)^[k] j → i = j := by
  intro k
  induction k with
  | zero => intro i j _ _ h; exact h
  | succ k ih =>
    intro i j hi hj h
    rw [Function.iterate_succ_apply', Function.iterate_succ_apply'] at h
    exact ih hi hj (cxNext_inj p1 p2 hnd hperm
      (cxIter_lt p1 p2 hperm k hi) (cxIter_lt p1 p2 hperm k hj) h)

lemma cx_period (p1 p2 : List α) (hnd : p1.Nodup) (hperm : p2.Perm p1)
    {i : Nat} (hi : i < p1.length) :
    ∃ p, 1 ≤ p ∧ p ≤ p1.length ∧ (cxNext p1 p2)^[p] i = i := by
  have hmaps : ∀ a ∈ Finset.range (p1.length + 1),
      (cxNext p1 p2)^[a] i ∈ Finset.range p1.length := by
    intro a _
    rw [Finset.mem_range]
    exact cxIter_lt p1 p2 hperm a hi
  obtain ⟨a, ha, b, hb, hab, heq⟩ :=
    Finset.exists_ne_map_eq_of_card_lt_of_maps_to
      (by simp) hmaps
  rw [Finset.mem_range] at ha hb
  rcases Nat.lt_or_ge a b with h | h
  · refine ⟨b - a, by omega, by omega, ?_⟩
    apply cxIter_inj p1 p2 hnd hperm a
      (cxIter_lt p1 p2 hperm _ hi) hi
    rw [← Function.iterate_add_apply, show a + (b - a) = b from by omega]
    exact heq.symm
  · have h' : b < a := by omega
    refine ⟨a - b, by omega, by omega, ?_⟩
    apply cxIter_inj p1 p2 hnd hperm b
      (cxIter_lt p1 p2 hperm _ hi) hi
    rw [← Function.iterate_add_apply, show b + (a - b) = a from by omega]
    exact heq

lemma cxIter_mul_period (p1 p2 : List α) {i p : Nat}
    (hp : (cxNext p1 p2)^[p] i = i) :
    ∀ a, (cxNext p1 p2)^[a * p] i = i := by
  intro a
  induction a with
  | zero =>
    rw [Nat.zero_mul]
    rfl
  | succ a ih =>
    rw [Nat.succ_mul, Function.iterate_add_apply, hp, ih]

lemma cx_reach_of_iterate (p1 p2 : List α) (hnd : p1.Nodup)
    (hperm : p2.Perm p1) {i j : Nat} (hi : i < p1.length)
    (h : ∃ k, (cxNext p1 p2)^[k] i = j) :
    cxReach p1 p2 p1.length i j := by
  obtain ⟨k, hk⟩ := h
  obtain ⟨p, hp1, hpn, hp⟩ := cx_period p1 p2 hnd hperm hi
  have hmod : (cxNext p1 p2)^[k] i = (cxNext p1 p2)^[k % p] i := by
    conv_lhs => rw [show k = k % p + k / p * p from by
      rw [Nat.mul_comm]; exact (Nat.mod_add_div k p).symm]
    rw [Function.iterate_add_apply, cxIter_mul_period p1 p2 hp]
  exact ⟨k % p, by
    have := Nat.mod_lt k (show 0 < p by omega)
    omega, by rw [← hmod]; exact hk⟩

lemma cx_reach_refl (p1 p2 : List α) {i : Nat} (hi : i < p1.length) :
    cxReach p1 p2 p1.length i i :=
  ⟨0, by omega, rfl⟩

lemma cx_reach_lt (p1 p2 : List α) (hperm : p2.Perm p1) {i j : Nat}
    (hi : i < p1.length) (h : cxReach p1 p2 p1.length i j) : j < p1.length := by
  obtain ⟨k, _, hk⟩ := h
  rw [← hk]
  exact cxIter_lt p1 p2 hperm k hi

lemma cx_reach_symm (p1 p2 : List α) (hnd : p1.Nodup) (hperm : p2.Perm p1)
    {i j : Nat} (hi : i < p1.length) (h : cxReach p1 p2 p1.length i j) :
    cxReach p1 p2 p1.length j i := by
  obtain ⟨k, hkn, hk⟩ := h
  have hj : j < p1.length := by
    rw [← hk]
    exact cxIter_lt p1 p2 hperm k hi
  obtain ⟨p, hp1, hpn, hp⟩ := cx_period p1 p2 hnd hperm hi
  apply cx_reach_of_iterate p1 p2 hnd hperm hj
  refine ⟨k * p - k, ?_⟩
  have hkp : k ≤ k * p := Nat.le_mul_of_pos_right k (by omega)
  rw [← hk, ← Function.iterate_add_apply, show k * p - k + k = k * p from by omega]
  exact cxIter_mul_period p1 p2 hp k

lemma cx_reach_trans (p1 p2 : List α) (hnd : p1.Nodup) (hperm : p2.Perm p1)
    {i j l : Nat} (hi : i < p1.length)
    (h1 : cxReach p1 p2 p1.length i j) (h2 : cxReach p1 p2 p1.length j l) :
    cxReach p1 p2 p1.length i l := by
  obtain ⟨k1, _, hk1⟩ := h1
  obtain ⟨k2, _, hk2⟩ := h2
  apply cx_reach_of_iterate p1 p2 hnd hperm hi
  exact ⟨k2 + k1, by rw [Function.iterate_add_apply, hk1, hk2]⟩

lemma foldr_min_le_base (l : List Nat) (b : Nat) : l.foldr min b ≤ b := by
  induction l with
  | nil => exact le_refl b
  | cons x l ih => exact le_trans (min_le_right _ _) ih

lemma foldr_min_le_mem (l : List Nat) (b : Nat) {x : Nat} (hx : x ∈ l) :
    l.foldr min b ≤ x := by
  induction l with
  | nil => cases hx
  | cons y l ih =>
    rcases List.mem_cons.mp hx with h | h
    · subst h
      exact min_le_left _ _
    · exact le_trans (min_le_right _ _) (ih h)

lemma foldr_min_mem_or_base (l : List Nat) (b : Nat) :
    l.foldr min b ∈ l ∨ l.foldr min b = b := by
  induction l with
  | nil => exact Or.inr rfl
  | cons y l ih =>
    rcases min_cases y (l.foldr min b) with ⟨h, _⟩ | ⟨h, _⟩
    · exact Or.inl (by rw [List.foldr_cons, h]; exact List.mem_cons_self _ _)
    · rcases ih with h2 | h2
      · exact Or.inl (by rw [List.foldr_cons, h]; exact List.mem_cons_of_mem _ h2)
      · exact Or.inr (by rw [List.foldr_cons, h, h2])

lemma cycleMin_le_self (p1 p2 : List α) (n i : Nat) :
    cycleMin p1 p2 n i ≤ i :=
  foldr_min_le_base _ i

lemma cycleMin_reach (p1 p2 : List α) {i : Nat} (hi : i < p1.length) :
    cxReach p1 p2 p1.length i (cycleMin p1 p2 p1.length i) ∧
      cycleMin p1 p2 p1.length i < p1.length := by
  rcases foldr_min_mem_or_base
      ((List.range p1.length).filter
        (fun j => decide (cxReach p1 p2 p1.length i j))) i with h | h
  · rw [List.mem_filter, List.mem_range, decide_eq_true_eq] at h
    exact ⟨h.2, h.1⟩
  · rw [cycleMin, h]
    exact ⟨cx_reach_refl p1 p2 hi, hi⟩

lemma cycleMin_le_of_reach (p1 p2 : List α) (hperm : p2.Perm p1)
    {i j : Nat} (hi : i < p1.length)
    (h : cxReach p1 p2 p1.length i j) : cycleMin p1 p2 p1.length i ≤ j := by
  apply foldr_min_le_mem
  rw [List.mem_filter, List.mem_range, decide_eq_true_eq]
  exact ⟨cx_reach_lt p1 p2 hperm hi h, h⟩

lemma cycleMin_congr (p1 p2 : List α) (hnd : p1.Nodup) (hperm : p2.Perm p1)
    {i j : Nat} (hi : i < p1.length) (hj : j < p1.length)
    (h : cxReach p1 p2 p1.length i j) :
    cycleMin p1 p2 p1.length i = cycleMin p1 p2 p1.length j := by
  apply le_antisymm
  · rcases cycleMin_reach p1 p2 hj with ⟨hr, _⟩
    exact cycleMin_le_of_reach p1 p2 hperm hi
      (cx_reach_trans p1 p2 hnd hperm hi h hr)
  · rcases cycleMin_reach p1 p2 hi with ⟨hr, _⟩
    exact cycleMin_le_of_reach p1 p2 hperm hj
      (cx_reach_trans p1 p2 hnd hperm hj (cx_reach_symm p1 p2 hnd hperm hi h) hr)

lemma cycleMin_idem (p1 p2 : List α) (hnd : p1.Nodup) (hperm : p2.Perm p1)
    {i : Nat} (hi : i < p1.length) :
    cycleMin p1 p2 p1.length (cycleMin p1 p2 p1.length i) =
      cycleMin p1 p2 p1.length i := by
  rcases cycleMin_reach p1 p2 hi with ⟨hr, hlt⟩
  exact (cycleMin_congr p1 p2 hnd hperm hi hlt hr).symm

lemma cycleNumber_pos (p1 p2 : List α) (hnd : p1.Nodup) (hperm : p2.Perm p1)
    {i : Nat} (hi : i < p1.length) :
    1 ≤ cycleNumber p1 p2 p1.length i := by
  rw [cycleNumber]
  have hmem : cycleMin p1 p2 p1.length i ∈
      (List.range (cycleMin p1 p2 p1.length i + 1)).filter
        (fun m => decide (cycleMin p1 p2 p1.length m = m)) := by
    rw [List.mem_filter, List.mem_range, decide_eq_true_eq]
    exact ⟨by omega, cycleMin_idem p1 p2 hnd hperm hi⟩
  exact List.length_pos.mpr (List.ne_nil_of_mem hmem)

lemma cycleNumber_congr (p1 p2 : List α) (hnd : p1.Nodup) (hperm : p2.Perm p1)
    {i j : Nat} (hi : i < p1.length) (hj : j < p1.length)
    (h : cxReach p1 p2 p1.length i j) :
    cycleNumber p1 p2 p1.length i = cycleNumber p1 p2 p1.length j := by
  rw [cycleNumber, cycleNumber, cycleMin_congr p1 p2 hnd hperm hi hj h]

lemma cxIter_mod (p1 p2 : List α) {i p : Nat}
    (hp : (cxNext p1 p2)^[p] i = i) (k : Nat) :
    (cxNext p1 p2)^[k] i = (cxNext p1 p2)^[k % p] i := by
  conv_lhs => rw [show k = k % p + k / p * p from by
    rw [Nat.mul_comm]; exact (Nat.mod_add_div k p).symm]
  rw [Function.iterate_add_apply, cxIter_mul_period p1 p2 hp]

/-- The `while not visited[current]` walk of `CycleCrossover.__call__`
marks exactly the cycle of its starting point `t₀`, writes the
parity-chosen parent genes at those positions, and leaves everything
else untouched.  Stated as an invariant over the walk step `s`
(`cur = σ^[s] t₀`); the original visited set `V₀` is a union of other
cycles (closed under reachability) not containing `t₀`. -/
lemma cxInner_spec (p1 p2 : List α) (hnd : p1.Nodup) (hperm : p2.Perm p1)
    (odd : Bool) (t₀ : Nat) (ht₀n : t₀ < p1.length)
    (V₀ : List Bool) (c1₀ c2₀ : List (Option α))
    (hV₀closed : ∀ i j, i < p1.length → j < p1.length →
      V₀.getD i false = true → cxReach p1 p2 p1.length i j →
      V₀.getD j false = true)
    (ht₀ : V₀.getD t₀ false = false) :
    ∀ fuel s V c1 c2,
      fuel = p1.length + 1 - s →
      s ≤ p1.length →
      V.length = p1.length → c1.length = p1.length → c2.length = p1.length →
      (∀ j, j < p1.length → (V.getD j false = true ↔
        (V₀.getD j false = true ∨ ∃ r < s, (cxNext p1 p2)^[r] t₀ = j))) →
      (∀ r r', r < s → r' < s →
        (cxNext p1 p2)^[r] t₀ = (cxNext p1 p2)^[r'] t₀ → r = r') →
      (∀ j, j < p1.length → (∃ r < s, (cxNext p1 p2)^[r] t₀ = j) →
        c1.getD j none =
          some (if odd then p1.getD j default else p2.getD j default) ∧
        c2.getD j none =
          some (if odd then p2.getD j default else p1.getD j default)) →
      (∀ j, j < p1.length → (¬ ∃ r < s, (cxNext p1 p2)^[r] t₀ = j) →
        c1.getD j none = c1₀.getD j none ∧ c2.getD j none = c2₀.getD j none) →
      (cxInner p1 p2 odd fuel ((cxNext p1 p2)^[s] t₀) V c1 c2).1.length =
          p1.length ∧
      (cxInner p1 p2 odd fuel ((cxNext p1 p2)^[s] t₀) V c1 c2).2.1.length =
          p1.length ∧
      (cxInner p1 p2 odd fuel ((cxNext p1 p2)^[s] t₀) V c1 c2).2.2.length =
          p1.length ∧
      (∀ j, j < p1.length →
        ((cxInner p1 p2 odd fuel ((cxNext p1 p2)^[s] t₀) V c1 c2).1.getD j false
            = true ↔
          (V₀.getD j false = true ∨ cxReach p1 p2 p1.length t₀ j))) ∧
      (∀ j, j < p1.length → cxReach p1 p2 p1.length t₀ j →
        (cxInner p1 p2 odd fuel ((cxNext p1 p2)^[s] t₀) V c1 c2).2.1.getD j none
            = some (if odd then p1.getD j default else p2.getD j default) ∧
        (cxInner p1 p2 odd fuel ((cxNext p1 p2)^[s] t₀) V c1 c2).2.2.getD j none
            = some (if odd then p2.getD j default else p1.getD j default)) ∧
      (∀ j, j < p1.length → ¬ cxReach p1 p2 p1.length t₀ j →
        (cxInner p1 p2 odd fuel ((cxNext p1 p2)^[s] t₀) V c1 c2).2.1.getD j none
            = c1₀.getD j none ∧
        (cxInner p1 p2 odd fuel ((cxNext p1 p2)^[s] t₀) V c1 c2).2.2.getD j none
            = c2₀.getD j none) := by
  intro fuel
  induction fuel with
  | zero =>
    intro s V c1 c2 hfuel hs _ _ _ _ _ _ _
    omega
  | succ f ih =>
    intro s V c1 c2 hfuel hs hVlen hc1len hc2len hVsem hdist hassigned huntouched
    have hcur : (cxNext p1 p2)^[s] t₀ < p1.length := cxIter_lt p1 p2 hperm s ht₀n
    by_cases hvis : V.getD ((cxNext p1 p2)^[s] t₀) false = true
    · -- walk closed: everything reachable is already marked
      rw [cxInner, if_pos hvis]
      have hvs := (hVsem _ hcur).mp hvis
      rcases hvs with hold | ⟨r, hr, hrw⟩
      · -- impossible: t₀'s cycle meets the old visited set
        exfalso
        have hreach : cxReach p1 p2 p1.length ((cxNext p1 p2)^[s] t₀) t₀ :=
          cx_reach_symm p1 p2 hnd hperm ht₀n
            (cx_reach_of_iterate p1 p2 hnd hperm ht₀n ⟨s, rfl⟩)
        have := hV₀closed _ _ hcur ht₀n hold hreach
        rw [ht₀] at this
        cases this
      · -- the walk has closed on itself: it covers the whole cycle
        have hperiod : (cxNext p1 p2)^[s - r] t₀ = t₀ := by
          apply cxIter_inj p1 p2 hnd hperm r
            (cxIter_lt p1 p2 hperm _ ht₀n) ht₀n
          rw [← Function.iterate_add_apply, show r + (s - r) = s from by omega]
          exact hrw.symm
        have hcomplete : ∀ j, j < p1.length →
            (cxReach p1 p2 p1.length t₀ j ↔
              ∃ r' < s, (cxNext p1 p2)^[r'] t₀ = j) := by
          intro j _
          constructor
          · rintro ⟨k, hkn, hk⟩
            refine ⟨k % (s - r), ?_, ?_⟩
            · have := Nat.mod_lt k (show 0 < s - r by omega)
              omega
            · rw [← cxIter_mod p1 p2 hperiod k]
              exact hk
          · rintro ⟨r', hr', hrw'⟩
            exact cx_reach_of_iterate p1 p2 hnd hperm ht₀n ⟨r', hrw'⟩
        refine ⟨hVlen, hc1len, hc2len, ?_, ?_, ?_⟩
        · intro j hj
          rw [hVsem j hj]
          constructor
          · rintro (h | h)
            · exact Or.inl h
            · exact Or.inr ((hcomplete j hj).mpr h)
          · rintro (h | h)
            · exact Or.inl h
            · exact Or.inr ((hcomplete j hj).mp h)
        · intro j hj hreach
          exact hassigned j hj ((hcomplete j hj).mp hreach)
        · intro j hj hreach
          exact huntouched j hj (fun h => hreach ((hcomplete j hj).mpr h))
    · -- fresh position: mark it, assign it, and continue along the cycle
      have hsn : s < p1.length := by
        by_contra hcon
        have hseq : s = p1.length := by omega
        have hwperm : ((List.range p1.length).map
            (fun r => (cxNext p1 p2)^[r] t₀)).Perm (List.range p1.length) := by
          apply map_range_perm_range
          · intro r _
            exact cxIter_lt p1 p2 hperm r ht₀n
          · intro a ha b hb hab
            exact hdist a b (by omega) (by omega) hab
        have hmem : (cxNext p1 p2)^[s] t₀ ∈
            (List.range p1.length).map (fun r => (cxNext p1 p2)^[r] t₀) := by
          rw [hwperm.mem_iff, List.mem_range]
          exact hcur
        obtain ⟨r, hrmem, hrw⟩ := List.mem_map.mp hmem
        rw [List.mem_range] at hrmem
        have : V.getD ((cxNext p1 p2)^[s] t₀) false = true :=
          (hVsem _ hcur).mpr (Or.inr ⟨r, by omega, hrw⟩)
        exact hvis this
      rw [cxInner, if_neg hvis]
      have hnext : p2.indexOf (p1.getD ((cxNext p1 p2)^[s] t₀) default) =
          (cxNext p1 p2)^[s + 1] t₀ := by
        rw [Function.iterate_succ_apply']
        rfl
      rw [hnext]
      -- new walked-prefix characterizations
      have hfresh : ∀ r, r < s → (cxNext p1 p2)^[r] t₀ ≠ (cxNext p1 p2)^[s] t₀ := by
        intro r hr hcon
        exact hvis ((hVsem _ hcur).mpr (Or.inr ⟨r, hr, hcon⟩))
      apply ih (s + 1) (V.set ((cxNext p1 p2)^[s] t₀) true) _ _ (by omega)
        (by omega)
        (by rw [List.length_set]; exact hVlen)
        (by rw [List.length_set]; exact hc1len)
        (by rw [List.length_set]; exact hc2len)
      · -- visited-set semantics at s+1
        intro j hj
        by_cases hjeq : j = (cxNext p1 p2)^[s] t₀
        · subst hjeq
          rw [List.getD_eq_getElem?_getD,
            List.getElem?_set_self (by rw [hVlen]; exact hcur)]
          simp only [Option.getD_some]
          constructor
          · intro _
            exact Or.inr ⟨s, by omega, rfl⟩
          · intro _
            trivial
        · rw [List.getD_eq_getElem?_getD,
            List.getElem?_set_ne (fun hcon => hjeq hcon.symm),
            ← List.getD_eq_getElem?_getD, hVsem j hj]
          constructor
          · rintro (h | ⟨r, hr, hrw⟩)
            · exact Or.inl h
            · exact Or.inr ⟨r, by omega, hrw⟩
          · rintro (h | ⟨r, hr, hrw⟩)
            · exact Or.inl h
            · rcases Nat.lt_or_ge r s with hrs | hrs
              · exact Or.inr ⟨r, hrs, hrw⟩
              · exfalso
                apply hjeq
                rw [← hrw, show r = s from by omega]
      · -- distinctness extended to s+1
        intro r r' hr hr' hrw
        rcases Nat.lt_or_ge r s with h1 | h1 <;> rcases Nat.lt_or_ge r' s with h2 | h2
        · exact hdist r r' h1 h2 hrw
        · exfalso
          exact hfresh r h1 (by rw [hrw, show r' = s from by omega])
        · exfalso
          exact hfresh r' h2 (by rw [← hrw, show r = s from by omega])
        · omega
      · -- assigned positions at s+1
        intro j hj hex
        by_cases hjeq : j = (cxNext p1 p2)^[s] t₀
        · subst hjeq
          constructor
          · rw [List.getD_eq_getElem?_getD,
              List.getElem?_set_self (by rw [hc1len]; exact hcur)]
            rfl
          · rw [List.getD_eq_getElem?_getD,
              List.getElem?_set_self (by rw [hc2len]; exact hcur)]
            rfl
        · obtain ⟨r, hr, hrw⟩ := hex
          have hrs : r < s := by
            rcases Nat.lt_or_ge r s with h1 | h1
            · exact h1
            · exact absurd (by rw [← hrw, show r = s by omega]) hjeq
          have h1 := hassigned j hj ⟨r, hrs, hrw⟩
          constructor
          · rw [List.getD_eq_getElem?_getD,
              List.getElem?_set_ne (fun hcon => hjeq hcon.symm),
              ← List.getD_eq_getElem?_getD]
            exact h1.1
          · rw [List.getD_eq_getElem?_getD,
              List.getElem?_set_ne (fun hcon => hjeq hcon.symm),
              ← List.getD_eq_getElem?_getD]
            exact h1.2
      · -- untouched positions at s+1
        intro j hj hnex
        have hjeq : j ≠ (cxNext p1 p2)^[s] t₀ :=
          fun hcon => hnex ⟨s, by omega, hcon.symm⟩
        have hnex' : ¬ ∃ r < s, (cxNext p1 p2)^[r] t₀ = j :=
          fun ⟨r, hr, hrw⟩ => hnex ⟨r, by omega, hrw⟩
        have h1 := huntouched j hj hnex'
        constructor
        · rw [List.getD_eq_getElem?_getD,
            List.getElem?_set_ne (fun hcon => hjeq hcon.symm),
            ← List.getD_eq_getElem?_getD]
          exact h1.1
        · rw [List.getD_eq_getElem?_getD,
            List.getElem?_set_ne (fun hcon => hjeq hcon.symm),
            ← List.getD_eq_getElem?_getD]
          exact h1.2

/-- Invariant of the outer `for idx in range(gen_len)` loop of
`CycleCrossover.__call__` after processing indices `0..t-1`:
`cycle_num` counts the cycle minima below `t`, the visited set is the
union of the cycles whose minimum is below `t`, and exactly those
positions carry their parity-assigned genes. -/
lemma cxFold_inv (p1 p2 : List α) (hnd : p1.Nodup) (hperm : p2.Perm p1) :
    ∀ t, t ≤ p1.length →
      ((List.range t).foldl (cxStep p1 p2) (cxInit p1.length)).1 =
        ((List.range t).filter
          (fun m => decide (cycleMin p1 p2 p1.length m = m))).length ∧
      ((List.range t).foldl (cxStep p1 p2) (cxInit p1.length)).2.1.length =
        p1.length ∧
      ((List.range t).foldl (cxStep p1 p2) (cxInit p1.length)).2.2.1.length =
        p1.length ∧
      ((List.range t).foldl (cxStep p1 p2) (cxInit p1.length)).2.2.2.length =
        p1.length ∧
      (∀ j, j < p1.length →
        (((List.range t).foldl (cxStep p1 p2) (cxInit p1.length)).2.1.getD j
            false = true ↔ cycleMin p1 p2 p1.length j < t)) ∧
      (∀ j, j < p1.length → cycleMin p1 p2 p1.length j < t →
        ((List.range t).foldl (cxStep p1 p2) (cxInit p1.length)).2.2.1.getD j
            none = some (if cycleNumber p1 p2 p1.length j % 2 = 1
              then p1.getD j default else p2.getD j default) ∧
        ((List.range t).foldl (cxStep p1 p2) (cxInit p1.length)).2.2.2.getD j
            none = some (if cycleNumber p1 p2 p1.length j % 2 = 1
              then p2.getD j default else p1.getD j default)) ∧
      (∀ j, j < p1.length → t ≤ cycleMin p1 p2 p1.length j →
        ((List.range t).foldl (cxStep p1 p2) (cxInit p1.length)).2.2.1.getD j
            none = none ∧
        ((List.range t).foldl (cxStep p1 p2) (cxInit p1.length)).2.2.2.getD j
            none = none) := by
  intro t
  induction t with
  | zero =>
    intro _
    refine ⟨rfl, by simp [cxInit], by simp [cxInit], by simp [cxInit],
      ?_, ?_, ?_⟩
    · intro j hj
      simp [cxInit, List.getD_eq_getElem?_getD, List.getElem?_replicate, hj]
    · intro j _ hcon
      omega
    · intro j hj _
      simp [cxInit, List.getD_eq_getElem?_getD, List.getElem?_replicate, hj]
  | succ t ihx =>
    intro ht
    obtain ⟨hnum, hVlen, hc1len, hc2len, hVsem, hset, hunset⟩ :=
      ihx (by omega)
    have htn : t < p1.length := by omega
    have hstep : (List.range (t + 1)).foldl (cxStep p1 p2) (cxInit p1.length) =
        cxStep p1 p2
          ((List.range t).foldl (cxStep p1 p2) (cxInit p1.length)) t := by
      rw [List.range_succ, List.foldl_append, List.foldl_cons, List.foldl_nil]
    by_cases hvis :
        ((List.range t).foldl (cxStep p1 p2) (cxInit p1.length)).2.1.getD t
          false = true
    · -- index t already visited: its cycle was discovered earlier
      have hmt : cycleMin p1 p2 p1.length t < t := (hVsem t htn).mp hvis
      have hnomin : ∀ j, j < p1.length →
          cycleMin p1 p2 p1.length j ≠ t := by
        intro j hj hcon
        have hr := (cycleMin_reach p1 p2 hj).1
        have h2 := cycleMin_congr p1 p2 hnd hperm hj
          (cycleMin_reach p1 p2 hj).2 hr
        rw [hcon] at h2
        rw [← h2] at hmt
        omega
      have hskip : cxStep p1 p2
          ((List.range t).foldl (cxStep p1 p2) (cxInit p1.length)) t =
          (List.range t).foldl (cxStep p1 p2) (cxInit p1.length) := by
        rw [cxStep, if_pos hvis]
      rw [hstep, hskip]
      refine ⟨?_, hVlen, hc1len, hc2len, ?_, ?_, ?_⟩
      · rw [List.range_succ, List.filter_append,
          List.filter_cons_of_neg (by
            simp only [decide_eq_true_eq]
            exact hnomin t htn), List.filter_nil, List.append_nil]
        exact hnum
      · intro j hj
        rw [hVsem j hj]
        have := hnomin j hj
        omega
      · intro j hj hjt
        exact hset j hj (by have := hnomin j hj; omega)
      · intro j hj hjt
        exact hunset j hj (by omega)
    · -- index t opens a new cycle
      have hmint : cycleMin p1 p2 p1.length t = t := by
        have h1 := cycleMin_le_self p1 p2 p1.length t
        have h2 : ¬ (cycleMin p1 p2 p1.length t < t) := by
          intro hcon
          exact hvis ((hVsem t htn).mpr hcon)
        omega
      have hreach_iff : ∀ j, j < p1.length →
          (cxReach p1 p2 p1.length t j ↔ cycleMin p1 p2 p1.length j = t) := by
        intro j hj
        constructor
        · intro h
          rw [← cycleMin_congr p1 p2 hnd hperm htn hj h, hmint]
        · intro h
          apply cx_reach_symm p1 p2 hnd hperm hj
          rw [← h]
          exact (cycleMin_reach p1 p2 hj).1
      have hinner := cxInner_spec p1 p2 hnd hperm
        (decide ((((List.range t).foldl (cxStep p1 p2)
          (cxInit p1.length)).1 + 1) % 2 = 1)) t htn
        ((List.range t).foldl (cxStep p1 p2) (cxInit p1.length)).2.1
        ((List.range t).foldl (cxStep p1 p2) (cxInit p1.length)).2.2.1
        ((List.range t).foldl (cxStep p1 p2) (cxInit p1.length)).2.2.2
        (by
          intro i j hi hj hvi hr
          rw [hVsem j hj]
          rw [hVsem i hi] at hvi
          rw [← cycleMin_congr p1 p2 hnd hperm hi hj hr]
          exact hvi)
        (by
          rcases hb : ((List.range t).foldl (cxStep p1 p2)
            (cxInit p1.length)).2.1.getD t false with _ | _
          · rfl
          · exact absurd hb hvis)
        (p1.length + 1) 0
        ((List.range t).foldl (cxStep p1 p2) (cxInit p1.length)).2.1
        ((List.range t).foldl (cxStep p1 p2) (cxInit p1.length)).2.2.1
        ((List.range t).foldl (cxStep p1 p2) (cxInit p1.length)).2.2.2
        (by omega) (by omega) hVlen hc1len hc2len
        (by
          intro j hj
          constructor
          · intro h
            exact Or.inl h
          · rintro (h | ⟨r, hr, _⟩)
            · exact h
            · omega)
        (by intro r r' hr _ _; omega)
        (by rintro j _ ⟨r, hr, _⟩; omega)
        (by intro j _ _; exact ⟨rfl, rfl⟩)
      rw [Function.iterate_zero_apply] at hinner
      obtain ⟨hVlen', hc1len', hc2len', hVsem', hset', hunset'⟩ := hinner
      have hnum' : ((List.range (t + 1)).filter
          (fun m => decide (cycleMin p1 p2 p1.length m = m))).length =
          ((List.range t).foldl (cxStep p1 p2) (cxInit p1.length)).1 + 1 := by
        rw [List.range_succ, List.filter_append,
          List.filter_cons_of_pos (by
            simp only [decide_eq_true_eq]
            exact hmint), List.filter_nil, List.length_append, hnum]
        simp
      have hcycnum : ∀ j, j < p1.length → cycleMin p1 p2 p1.length j = t →
          cycleNumber p1 p2 p1.length j =
            ((List.range t).foldl (cxStep p1 p2) (cxInit p1.length)).1 + 1 := by
        intro j hj hjm
        rw [cycleNumber, hjm, hnum']
      have hstep' : cxStep p1 p2
          ((List.range t).foldl (cxStep p1 p2) (cxInit p1.length)) t =
          (((List.range t).foldl (cxStep p1 p2) (cxInit p1.length)).1 + 1,
            (cxInner p1 p2 (decide ((((List.range t).foldl (cxStep p1 p2)
                (cxInit p1.length)).1 + 1) % 2 = 1)) (p1.length + 1) t
              ((List.range t).foldl (cxStep p1 p2) (cxInit p1.length)).2.1
              ((List.range t).foldl (cxStep p1 p2) (cxInit p1.length)).2.2.1
              ((List.range t).foldl (cxStep p1 p2)
                (cxInit p1.length)).2.2.2).1,
            (cxInner p1 p2 (decide ((((List.range t).foldl (cxStep p1 p2)
                (cxInit p1.length)).1 + 1) % 2 = 1)) (p1.length + 1) t
              ((List.range t).foldl (cxStep p1 p2) (cxInit p1.length)).2.1
              ((List.range t).foldl (cxStep p1 p2) (cxInit p1.length)).2.2.1
              ((List.range t).foldl (cxStep p1 p2)
                (cxInit p1.length)).2.2.2).2.1,
            (cxInner p1 p2 (decide ((((List.range t).foldl (cxStep p1 p2)
                (cxInit p1.length)).1 + 1) % 2 = 1)) (p1.length + 1) t
              ((List.range t).foldl (cxStep p1 p2) (cxInit p1.length)).2.1
              ((List.range t).foldl (cxStep p1 p2) (cxInit p1.length)).2.2.1
              ((List.range t).foldl (cxStep p1 p2)
                (cxInit p1.length)).2.2.2).2.2) := by
        rw [cxStep, if_neg hvis]
      rw [hstep, hstep']
      refine ⟨by rw [hnum'], hVlen', hc1len', hc2len', ?_, ?_, ?_⟩
      · intro j hj
        rw [hVsem' j hj, hVsem j hj, hreach_iff j hj]
        omega
      · intro j hj hjt
        rcases Nat.lt_or_ge (cycleMin p1 p2 p1.length j) t with hlt | hge
        · -- assigned in an earlier cycle, untouched by this walk
          have hnr : ¬ cxReach p1 p2 p1.length t j := by
            rw [hreach_iff j hj]
            omega
          obtain ⟨hu1, hu2⟩ := hunset' j hj hnr
          rw [hu1, hu2]
          exact hset j hj hlt
        · -- assigned by this walk
          have hjm : cycleMin p1 p2 p1.length j = t := by omega
          have hr : cxReach p1 p2 p1.length t j := (hreach_iff j hj).mpr hjm
          obtain ⟨ha1, ha2⟩ := hset' j hj hr
          rw [ha1, ha2, hcycnum j hj hjm]
          constructor
          · congr 1
            by_cases hodd : (((List.range t).foldl (cxStep p1 p2)
                (cxInit p1.length)).1 + 1) % 2 = 1
            · rw [if_pos hodd, if_pos (by simpa using hodd)]
            · rw [if_neg hodd, if_neg (by simpa using hodd)]
          · congr 1
            by_cases hodd : (((List.range t).foldl (cxStep p1 p2)
                (cxInit p1.length)).1 + 1) % 2 = 1
            · rw [if_pos hodd, if_pos (by simpa using hodd)]
            · rw [if_neg hodd, if_neg (by simpa using hodd)]
      · intro j hj hjt
        have hnr : ¬ cxReach p1 p2 p1.length t j := by
          rw [hreach_iff j hj]
          omega
        obtain ⟨hu1, hu2⟩ := hunset' j hj hnr
        rw [hu1, hu2]
        exact hunset j hj (by omega)

/-- Pointwise contents of the cycle-crossover children: position `j`
carries parent 1's or parent 2's gene in child 1 according to the parity
of `j`'s discovery-order cycle number, and the complementary gene in
child 2. -/
lemma cycleCrossoverChildren_spec (p1 p2 : List α) (hnd : p1.Nodup)
    (hperm : p2.Perm p1) :
    (cycleCrossoverChildren p1 p2).1.length = p1.length ∧
    (cycleCrossoverChildren p1 p2).2.length = p1.length ∧
    ∀ j, j < p1.length →
      (cycleCrossoverChildren p1 p2).1.getD j none =
        some (if cycleNumber p1 p2 p1.length j % 2 = 1 then p1.getD j default
          else p2.getD j default) ∧
      (cycleCrossoverChildren p1 p2).2.getD j none =
        some (if cycleNumber p1 p2 p1.length j % 2 = 1 then p2.getD j default
          else p1.getD j default) := by
  obtain ⟨_, _, hc1len, hc2len, _, hset, _⟩ :=
    cxFold_inv p1 p2 hnd hperm p1.length (le_refl _)
  refine ⟨hc1len, hc2len, ?_⟩
  intro j hj
  exact hset j hj (cycleMin_reach p1 p2 hj).2

lemma cx_reach_next (p1 p2 : List α) (hnd : p1.Nodup) (hperm : p2.Perm p1)
    {i : Nat} (hi : i < p1.length) :
    cxReach p1 p2 p1.length i (cxNext p1 p2 i) :=
  cx_reach_of_iterate p1 p2 hnd hperm hi ⟨1, rfl⟩

lemma cx_tau_lt (p1 p2 : List α) (hperm : p2.Perm p1) {i : Nat}
    (hi : i < p1.length) : cxNext p2 p1 i < p1.length := by
  rw [← hperm.length_eq]
  exact cxNext_lt p2 p1 hperm.symm (by rw [hperm.length_eq]; exact hi)

lemma cx_reach_tau (p1 p2 : List α) (hnd : p1.Nodup) (hperm : p2.Perm p1)
    {i : Nat} (hi : i < p1.length) :
    cxReach p1 p2 p1.length i (cxNext p2 p1 i) := by
  apply cx_reach_symm p1 p2 hnd hperm (cx_tau_lt p1 p2 hperm hi)
  apply cx_reach_of_iterate p1 p2 hnd hperm (cx_tau_lt p1 p2 hperm hi)
  refine ⟨1, ?_⟩
  rw [Function.iterate_one]
  exact cxNext_inv p1 p2 (hperm.nodup_iff.mpr hnd) hperm hi

/-- The gene multiset of each cycle-crossover child equals the parents'
shared gene multiset: the child reads `p1` through an injective
reindexing of the positions (identity on cycles that inherit from `p1`,
the inverse jump `cxNext p2 p1` on the others). -/
lemma cx_child_perm (p1 p2 : List α) (hnd : p1.Nodup) (hperm : p2.Perm p1)
    (sel : Nat → Bool)
    (hsel : ∀ i j, i < p1.length → j < p1.length →
      cxReach p1 p2 p1.length i j → sel i = sel j) :
    ((List.range p1.length).map (fun i =>
      if sel i then p1.getD i default else p2.getD i default)).Perm p1 := by
  have hnd2 : p2.Nodup := hperm.nodup_iff.mpr hnd
  have hcongr : List.map (fun i =>
        if sel i then p1.getD i default else p2.getD i default)
        (List.range p1.length) =
      List.map (fun i =>
        p1.getD (if sel i then i else cxNext p2 p1 i) default)
        (List.range p1.length) := by
    apply List.map_congr_left
    intro i hi
    rw [List.mem_range] at hi
    by_cases hs : sel i
    · rw [if_pos hs, if_pos hs]
    · rw [if_neg hs, if_neg hs]
      exact (cxNext_getD p2 p1 hperm.symm
        (by rw [hperm.length_eq]; exact hi)).symm
  rw [hcongr]
  apply map_range_getD_perm
  · intro i hi
    by_cases hs : sel i
    · rw [if_pos hs]; exact hi
    · rw [if_neg hs]; exact cx_tau_lt p1 p2 hperm hi
  · intro i hi j hj hij
    by_cases hsi : sel i <;> by_cases hsj : sel j
    · rwa [if_pos hsi, if_pos hsj] at hij
    · rw [if_pos hsi, if_neg hsj] at hij
      exfalso
      have h1 : sel i = sel (cxNext p2 p1 j) := by rw [hij]
      have h2 : sel j = sel (cxNext p2 p1 j) :=
        hsel j _ hj (cx_tau_lt p1 p2 hperm hj) (cx_reach_tau p1 p2 hnd hperm hj)
      rw [← h2] at h1
      rw [h1] at hsi
      exact hsj hsi
    · rw [if_neg hsi, if_pos hsj] at hij
      exfalso
      have h1 : sel j = sel (cxNext p2 p1 i) := by rw [← hij]
      have h2 : sel i = sel (cxNext p2 p1 i) :=
        hsel i _ hi (cx_tau_lt p1 p2 hperm hi) (cx_reach_tau p1 p2 hnd hperm hi)
      rw [← h2] at h1
      rw [← h1] at hsi
      exact hsi hsj
    · rw [if_neg hsi, if_neg hsj] at hij
      have := congrArg (cxNext p1 p2) hij
      rwa [cxNext_inv p1 p2 hnd2 hperm hi,
        cxNext_inv p1 p2 hnd2 hperm hj] at this

/-- C3: for parents that are duplicate-free permutations of the same
gene set, cycle crossover assigns every position to exactly one cycle
(positions are partitioned by the reachability classes of the
index-jump function, each class identified by its minimal position);
numbering cycles from 1 in discovery order (`cycleNumber`, the count of
cycle minima up to the class minimum — the order the `for idx` loop
finds them), at positions of odd-numbered cycles child 1 takes
parent 1's gene and child 2 parent 2's, at even-numbered cycles the
assignment is swapped; consequently every position's pair of child
genes is parent 1's and parent 2's genes in one order or the other,
and each child is a permutation of the shared gene set. -/
theorem C3_cycle_crossover_correct (p1 p2 : List α) (hnd : p1.Nodup)
    (hperm : p2.Perm p1) :
    (∀ i, i < p1.length → cxReach p1 p2 p1.length i i) ∧
    (∀ i j, i < p1.length → j < p1.length →
      (cxReach p1 p2 p1.length i j ↔
        cycleMin p1 p2 p1.length i = cycleMin p1 p2 p1.length j)) ∧
    (∀ i, i < p1.length →
      1 ≤ cycleNumber p1 p2 p1.length i ∧
      cycleNumber p1 p2 p1.length (cxNext p1 p2 i) =
        cycleNumber p1 p2 p1.length i ∧
      (cycleNumber p1 p2 p1.length i % 2 = 1 →
        (cycleCrossoverChildren p1 p2).1.getD i none =
          some (p1.getD i default) ∧
        (cycleCrossoverChildren p1 p2).2.getD i none =
          some (p2.getD i default)) ∧
      (cycleNumber p1 p2 p1.length i % 2 = 0 →
        (cycleCrossoverChildren p1 p2).1.getD i none =
          some (p2.getD i default) ∧
        (cycleCrossoverChildren p1 p2).2.getD i none =
          some (p1.getD i default))) ∧
    (∀ i, i < p1.length →
      ((cycleCrossoverChildren p1 p2).1.getD i none =
          some (p1.getD i default) ∧
        (cycleCrossoverChildren p1 p2).2.getD i none =
          some (p2.getD i default)) ∨
      ((cycleCrossoverChildren p1 p2).1.getD i none =
          some (p2.getD i default) ∧
        (cycleCrossoverChildren p1 p2).2.getD i none =
          some (p1.getD i default))) ∧
    (∃ d1 d2 : List α,
      (cycleCrossoverChildren p1 p2).1 = d1.map some ∧ d1.Perm p1 ∧
      (cycleCrossoverChildren p1 p2).2 = d2.map some ∧ d2.Perm p1) := by
  obtain ⟨hc1len, hc2len, hvals⟩ := cycleCrossoverChildren_spec p1 p2 hnd hperm
  refine ⟨fun i hi => cx_reach_refl p1 p2 hi, ?_, ?_, ?_, ?_⟩
  · intro i j hi hj
    constructor
    · exact cycleMin_congr p1 p2 hnd hperm hi hj
    · intro h
      have h1 := (cycleMin_reach p1 p2 hi).1
      have h2 := (cycleMin_reach p1 p2 hj).1
      rw [h] at h1
      exact cx_reach_trans p1 p2 hnd hperm hi h1
        (cx_reach_symm p1 p2 hnd hperm hj h2)
  · intro i hi
    refine ⟨cycleNumber_pos p1 p2 hnd hperm hi, ?_, ?_, ?_⟩
    · exact cycleNumber_congr p1 p2 hnd hperm (cxNext_lt p1 p2 hperm hi) hi
        (cx_reach_symm p1 p2 hnd hperm hi (cx_reach_next p1 p2 hnd hperm hi))
    · intro hodd
      obtain ⟨h1, h2⟩ := hvals i hi
      rw [h1, h2, if_pos hodd, if_pos hodd]
      exact ⟨rfl, rfl⟩
    · intro heven
      obtain ⟨h1, h2⟩ := hvals i hi
      have hne : ¬ (cycleNumber p1 p2 p1.length i % 2 = 1) := by omega
      rw [h1, h2, if_neg hne, if_neg hne]
      exact ⟨rfl, rfl⟩
  · intro i hi
    obtain ⟨h1, h2⟩ := hvals i hi
    by_cases hodd : cycleNumber p1 p2 p1.length i % 2 = 1
    · left
      rw [h1, h2, if_pos hodd, if_pos hodd]
      exact ⟨rfl, rfl⟩
    · right
      rw [h1, h2, if_neg hodd, if_neg hodd]
      exact ⟨rfl, rfl⟩
  · refine ⟨(List.range p1.length).map (fun i =>
        if decide (cycleNumber p1 p2 p1.length i % 2 = 1)
        then p1.getD i default else p2.getD i default),
      (List.range p1.length).map (fun i =>
        if decide (¬ cycleNumber p1 p2 p1.length i % 2 = 1)
        then p1.getD i default else p2.getD i default), ?_, ?_, ?_, ?_⟩
    · apply List.ext_getElem?
      intro t
      rcases lt_or_ge t p1.length with ht | ht
      · rw [getElem?_eq_some_getD _ none t (by rw [hc1len]; exact ht),
          (hvals t ht).1, List.getElem?_map, List.getElem?_map,
          List.getElem?_range ht, Option.map_some']
        congr 1
        by_cases hodd : cycleNumber p1 p2 p1.length t % 2 = 1
        · rw [if_pos hodd, if_pos (by simpa using hodd)]
        · rw [if_neg hodd, if_neg (by simpa using hodd)]
      · rw [List.getElem?_eq_none (by rw [hc1len]; omega),
          List.getElem?_eq_none (by
            rw [List.length_map, List.length_map, List.length_range]
            omega)]
    · exact cx_child_perm p1 p2 hnd hperm
        (fun i => decide (cycleNumber p1 p2 p1.length i % 2 = 1))
        (fun i j hi hj hr => by
          have h := cycleNumber_congr p1 p2 hnd hperm hi hj hr
          simp only [h])
    · apply List.ext_getElem?
      intro t
      rcases lt_or_ge t p1.length with ht | ht
      · rw [getElem?_eq_some_getD _ none t (by rw [hc2len]; exact ht),
          (hvals t ht).2, List.getElem?_map, List.getElem?_map,
          List.getElem?_range ht, Option.map_some']
        congr 1
        by_cases hodd : cycleNumber p1 p2 p1.length t % 2 = 1
        · rw [if_pos hodd, if_neg (by simpa using hodd)]
        · rw [if_neg hodd, if_pos (by simpa using hodd)]
      · rw [List.getElem?_eq_none (by rw [hc2len]; omega),
          List.getElem?_eq_none (by
            rw [List.length_map, List.length_map, List.length_range]
            omega)]
    · exact cx_child_perm p1 p2 hnd hperm
        (fun i => decide (¬ cycleNumber p1 p2 p1.length i % 2 = 1))
        (fun i j hi hj hr => by
          have h := cycleNumber_congr p1 p2 hnd hperm hi hj hr
          simp only [h])

/-- C3 witness: parents `[1,2,3,4]` and `[2,1,4,3]` have two cycles
(`{0,1}` and `{2,3}`); child 1 is `[1,2,4,3]`, child 2 is `[2,1,3,4]`. -/
theorem C3_cycle_crossover_correct_witness :
    (([1,2,3,4] : List ℕ).Nodup ∧ ([2,1,4,3] : List ℕ).Perm [1,2,3,4]) ∧
    cxReach [1,2,3,4] [2,1,4,3] 4 0 0 ∧
    (cycleNumber [1,2,3,4] [2,1,4,3] 4 0 % 2 = 1 →
      (cycleCrossoverChildren [1,2,3,4] [2,1,4,3]).1.getD 0 none = some 1 ∧
      (cycleCrossoverChildren [1,2,3,4] [2,1,4,3]).2.getD 0 none = some 2) ∧
    (cycleNumber [1,2,3,4] [2,1,4,3] 4 2 % 2 = 0 →
      (cycleCrossoverChildren [1,2,3,4] [2,1,4,3]).1.getD 2 none = some 4 ∧
      (cycleCrossoverChildren [1,2,3,4] [2,1,4,3]).2.getD 2 none = some 3) ∧
    (∃ d1 d2 : List ℕ,
      (cycleCrossoverChildren [1,2,3,4] [2,1,4,3]).1 = d1.map some ∧
      d1.Perm [1,2,3,4] ∧
      (cycleCrossoverChildren [1,2,3,4] [2,1,4,3]).2 = d2.map some ∧
      d2.Perm [1,2,3,4]) := by
  have h := C3_cycle_crossover_correct [1,2,3,4] [2,1,4,3]
    (by decide) (by decide)
  refine ⟨⟨by decide, by decide⟩, h.1 0 (by decide), ?_, ?_, h.2.2.2.2⟩
  · intro hodd
    exact (h.2.2.1 0 (by decide)).2.2.1 hodd
  · intro heven
    exact (h.2.2.1 2 (by decide)).2.2.2 heven

end CycleCrossoverProof

section MutationHelpers

variable {α : Type} [DecidableEq α] [Inhabited α]

instance : Inhabited (Individual (List α)) := ⟨⟨[], none, 0⟩⟩

lemma swapOnce_eq_map (g : List α) (i j : Nat) (hi : i < g.length)
    (hj : j < g.length) :
    swapOnce g i j = (List.range g.length).map
      (fun t => g.getD (if t = j then i else if t = i then j else t) default) := by
  apply List.ext_getElem?
  intro t
  rcases lt_or_ge t g.length with ht | ht
  · rw [List.getElem?_map, List.getElem?_range ht, Option.map_some']
    by_cases htj : t = j
    · subst htj
      rw [swapOnce, List.getElem?_set_self (by simpa using hj)]
      simp [List.getD_eq_getElem?_getD, List.getElem?_eq_getElem hi]
    · by_cases hti : t = i
      · subst hti
        rw [swapOnce, List.getElem?_set_ne (by omega)]
        rw [List.getElem?_set_self hi]
        simp [htj, List.getD_eq_getElem?_getD, List.getElem?_eq_getElem hj]
      · rw [swapOnce, List.getElem?_set_ne (by omega), List.getElem?_set_ne (by omega)]
        simp [htj, hti, List.getD_eq_getElem?_getD, List.getElem?_eq_getElem ht]
  · rw [List.getElem?_map]
    rw [List.getElem?_eq_none (by simp [swapOnce]; omega),
      List.getElem?_eq_none (by simpa using ht)]
    rfl

/-- Swapping two in-range positions yields a permutation of the list. -/
lemma swapOnce_perm (g : List α) (i j : Nat) (hi : i < g.length)
    (hj : j < g.length) : (swapOnce g i j).Perm g := by
  rw [swapOnce_eq_map g i j hi hj]
  apply map_range_getD_perm
  · intro t ht
    split_ifs <;> omega
  · intro a ha b hb h
    simp only at h
    split_ifs at h <;> omega

/-- Reversing an inclusive sub-range yields a permutation of the list. -/
lemma invertOnce_perm (g : List α) (i j : Nat) : (invertOnce g i j).Perm g := by
  have hsplit : g = g.take (min i j) ++
      (((g.drop (min i j)).take (max i j + 1 - min i j)) ++ g.drop (max i j + 1)) := by
    conv_lhs => rw [← List.take_append_drop (min i j) g]
    congr 1
    conv_lhs => rw [← List.take_append_drop (max i j + 1 - min i j) (g.drop (min i j))]
    congr 1
    rw [List.drop_drop]
    congr 1
    omega
  rw [invertOnce, List.append_assoc]
  conv_rhs => rw [hsplit]
  exact List.Perm.append_left _ (List.Perm.append_right _ (List.reverse_perm _))

lemma getD_mapIdx (f : Nat → Individual (List α) → Individual (List α))
    (l : List (Individual (List α))) (k : Nat) (hk : k < l.length) :
    (l.mapIdx f).getD k default = f k (l.getD k default) := by
  have hk' : k < (l.mapIdx f).length := by simpa [List.length_mapIdx] using hk
  rw [List.getD_eq_getElem?_getD, List.getElem?_eq_getElem hk',
    List.getElem_mapIdx, List.getD_eq_getElem?_getD, List.getElem?_eq_getElem hk]
  rfl

lemma swapMutateInd_spec {α : Type} [DecidableEq α] [Inhabited α]
    (fire : Bool) (i j : Nat) (ind : Individual (List α))
    (hb : 2 ≤ ind.genotype.length →
      i < ind.genotype.length ∧ j < ind.genotype.length) :
    ((swapMutateInd fire i j ind).genotype).Perm ind.genotype ∧
    (swapMutateInd fire i j ind).fitness = ind.fitness ∧
    (swapMutateInd fire i j ind).age = ind.age ∧
    (ind.genotype.length < 2 → swapMutateInd fire i j ind = ind) := by
  cases fire
  · simp [swapMutateInd]
  · by_cases hlen : ind.genotype.length < 2
    · simp [swapMutateInd, hlen]
    · have hb' := hb (by omega)
      simp only [swapMutateInd, if_true, if_neg hlen]
      exact ⟨swapOnce_perm _ i j hb'.1 hb'.2, by trivial, by trivial,
        fun h => absurd h hlen⟩

lemma invertMutateInd_spec {α : Type} [DecidableEq α] [Inhabited α]
    (fire : Bool) (i j : Nat) (ind : Individual (List α)) :
    ((invertMutateInd fire i j ind).genotype).Perm ind.genotype ∧
    (invertMutateInd fire i j ind).fitness = ind.fitness ∧
    (invertMutateInd fire i j ind).age = ind.age ∧
    (ind.genotype.length < 2 → invertMutateInd fire i j ind = ind) := by
  cases fire
  · simp [invertMutateInd]
  · by_cases hlen : ind.genotype.length < 2
    · simp [invertMutateInd, hlen]
    · simp only [invertMutateInd, if_true, if_neg hlen]
      exact ⟨invertOnce_perm _ i j, by trivial, by trivial,
        fun h => absurd h hlen⟩

end MutationHelpers

/-- C6: every mutation call — swap and inversion alike — leaves each
offspring's gene multiset unchanged (the genotype after the call is a
permutation of the genotype before), never touches fitness or age, and
leaves every genotype of length `< 2` completely unchanged, whether or
not the per-candidate probability fires.  The hypothesis `hdraws`
records what `random.sample(range(gen_len), 2)` guarantees: the two
sampled positions are in range (only relevant for genotypes of length
`≥ 2`, the only ones that are mutated). -/
theorem C6_mutation_invariants {α : Type} [DecidableEq α] [Inhabited α]
    (draws : Nat → Bool × Nat × Nat) (offspring : List (Individual (List α)))
    (hdraws : ∀ k, k < offspring.length →
      2 ≤ ((offspring.getD k default).genotype).length →
      (draws k).2.1 < ((offspring.getD k default).genotype).length ∧
      (draws k).2.2 < ((offspring.getD k default).genotype).length) :
    ((swapMutation draws offspring).length = offspring.length ∧
      ∀ k, k < offspring.length →
        (((swapMutation draws offspring).getD k default).genotype).Perm
          ((offspring.getD k default).genotype) ∧
        ((swapMutation draws offspring).getD k default).fitness =
          (offspring.getD k default).fitness ∧
        ((swapMutation draws offspring).getD k default).age =
          (offspring.getD k default).age ∧
        (((offspring.getD k default).genotype).length < 2 →
          (swapMutation draws offspring).getD k default =
            offspring.getD k default)) ∧
    ((inversionMutation draws offspring).length = offspring.length ∧
      ∀ k, k < offspring.length →
        (((inversionMutation draws offspring).getD k default).genotype).Perm
          ((offspring.getD k default).genotype) ∧
        ((inversionMutation draws offspring).getD k default).fitness =
          (offspring.getD k default).fitness ∧
        ((inversionMutation draws offspring).getD k default).age =
          (offspring.getD k default).age ∧
        (((offspring.getD k default).genotype).length < 2 →
          (inversionMutation draws offspring).getD k default =
            offspring.getD k default)) := by
  constructor
  · constructor
    · rw [swapMutation, List.length_mapIdx]
    · intro k hk
      rw [swapMutation, getD_mapIdx _ _ k hk]
      exact swapMutateInd_spec _ _ _ _ (hdraws k hk)
  · constructor
    · rw [inversionMutation, List.length_mapIdx]
    · intro k hk
      rw [inversionMutation, getD_mapIdx _ _ k hk]
      exact invertMutateInd_spec _ _ _ _

/-- C6 witness: a single offspring `[1,2,3]` with firing mutation and
sampled positions 0 and 2; both operators preserve the gene multiset. -/
theorem C6_mutation_invariants_witness :
    (∀ k, k < ([⟨[1,2,3], none, 0⟩] : List (Individual (List ℕ))).length →
      2 ≤ ((([⟨[1,2,3], none, 0⟩] : List (Individual (List ℕ))).getD k
        default).genotype).length →
      ((fun (_ : Nat) => (true, 0, 2)) k).2.1 <
        ((([⟨[1,2,3], none, 0⟩] : List (Individual (List ℕ))).getD k
          default).genotype).length ∧
      ((fun (_ : Nat) => (true, 0, 2)) k).2.2 <
        ((([⟨[1,2,3], none, 0⟩] : List (Individual (List ℕ))).getD k
          default).genotype).length) ∧
    (((swapMutation (fun _ => (true, 0, 2))
        ([⟨[1,2,3], none, 0⟩] : List (Individual (List ℕ)))).getD 0
        default).genotype).Perm [1,2,3] ∧
    (((inversionMutation (fun _ => (true, 0, 2))
        ([⟨[1,2,3], none, 0⟩] : List (Individual (List ℕ)))).getD 0
        default).genotype).Perm [1,2,3] := by
  have hdraws : ∀ k, k < ([⟨[1,2,3], none, 0⟩] : List (Individual (List ℕ))).length →
      2 ≤ ((([⟨[1,2,3], none, 0⟩] : List (Individual (List ℕ))).getD k
        default).genotype).length →
      ((fun (_ : Nat) => (true, 0, 2)) k).2.1 <
        ((([⟨[1,2,3], none, 0⟩] : List (Individual (List ℕ))).getD k
          default).genotype).length ∧
      ((fun (_ : Nat) => (true, 0, 2)) k).2.2 <
        ((([⟨[1,2,3], none, 0⟩] : List (Individual (List ℕ))).getD k
          default).genotype).length := by
    intro k hk _
    obtain rfl : k = 0 := by simpa using hk
    exact ⟨by decide, by decide⟩
  refine ⟨hdraws, ?_, ?_⟩
  · exact ((C6_mutation_invariants (fun _ => (true, 0, 2))
      [⟨[1,2,3], none, 0⟩] hdraws).1.2 0 (by decide)).1
  · exact ((C6_mutation_invariants (fun _ => (true, 0, 2))
      [⟨[1,2,3], none, 0⟩] hdraws).2.2 0 (by decide)).1

section EngineHelpers

variable {γ : Type}

lemma obLe_refl (a : Option ℚ) : obLe a a := by
  cases a <;> simp [obLe]

lemma obLe_trans {a b c : Option ℚ} (h1 : obLe a b) (h2 : obLe b c) : obLe a c := by
  cases a <;> cases b <;> cases c <;> simp [obLe] at * <;> exact le_trans h1 h2

lemma evalInd_best_mono (f : γ → ℚ) (best : Option (Individual γ))
    (ind : Individual γ) :
    obLe (best.bind (·.fitness)) ((evalInd f best ind).2.bind (·.fitness)) := by
  cases hf : ind.fitness with
  | some v => simp only [evalInd, hf]; exact obLe_refl _
  | none =>
    cases best with
    | none => trivial
    | some b =>
      cases hbf : b.fitness with
      | none => simp [evalInd, hf, hbf, obLe]
      | some bf =>
        by_cases hlt : bf < f ind.genotype
        · simp only [evalInd, hf, hbf, if_pos hlt, Option.some_bind]
          exact le_of_lt hlt
        · simp only [evalInd, hf, hbf, if_neg hlt, Option.some_bind]
          exact obLe_refl _

lemma evalPopulation_best_mono (f : γ → ℚ) (l : List (Individual γ))
    (best : Option (Individual γ)) :
    obLe (best.bind (·.fitness)) ((evalPopulation f l best).2.bind (·.fitness)) := by
  induction l generalizing best with
  | nil => exact obLe_refl _
  | cons ind rest ih =>
    exact obLe_trans (evalInd_best_mono f best ind) (ih (evalInd f best ind).2)

lemma evalPopulation_all_some (f : γ → ℚ) (l : List (Individual γ))
    (best : Option (Individual γ)) :
    ∀ ind' ∈ (evalPopulation f l best).1, ind'.fitness ≠ none := by
  induction l generalizing best with
  | nil => simp [evalPopulation]
  | cons ind rest ih =>
    intro ind' h
    simp only [evalPopulation, List.mem_cons] at h
    rcases h with h | h
    · subst h
      cases hf : ind.fitness with
      | some v => simp [evalInd, hf]
      | none => simp [evalInd, hf]
    · exact ih (evalInd f best ind).2 ind' h

lemma sortByFitnessDesc_head_max (l : List (Individual γ)) (hne : l ≠ []) :
    ∃ h t, sortByFitnessDesc l = h :: t ∧ h ∈ l ∧
      ∀ x ∈ l, fitKey x ≤ fitKey h := by
  cases hs : sortByFitnessDesc l with
  | nil =>
    have hperm := sortByFitnessDesc_perm l
    rw [hs] at hperm
    exact absurd hperm.symm.eq_nil hne
  | cons h t =>
    have hperm := sortByFitnessDesc_perm l
    rw [hs] at hperm
    have hsorted := sortByFitnessDesc_sorted l
    rw [hs] at hsorted
    refine ⟨h, t, rfl, hperm.subset (List.mem_cons_self h t), ?_⟩
    intro x hx
    have hx' : x ∈ h :: t := hperm.mem_iff.mpr hx
    rcases List.mem_cons.mp hx' with h1 | h1
    · subst h1; exact le_refl _
    · exact (List.pairwise_cons.mp hsorted).1 x h1

lemma le_foldl_max_base (ys : List ℚ) (x : ℚ) : x ≤ ys.foldl max x := by
  induction ys generalizing x with
  | nil => exact le_refl _
  | cons y ys ih => exact le_trans (le_max_left x y) (ih (max x y))

lemma le_foldl_max_mem (ys : List ℚ) (x a : ℚ) (h : a ∈ ys) :
    a ≤ ys.foldl max x := by
  induction ys generalizing x with
  | nil => cases h
  | cons y ys ih =>
    rcases List.mem_cons.mp h with h1 | h1
    · subst h1; exact le_trans (le_max_right x a) (le_foldl_max_base ys _)
    · exact ih _ h1

lemma max?_ge_of_mem {l : List ℚ} {a : ℚ} (h : a ∈ l) :
    ∃ m, l.max? = some m ∧ a ≤ m := by
  cases l with
  | nil => cases h
  | cons x xs =>
    refine ⟨xs.foldl max x, rfl, ?_⟩
    rcases List.mem_cons.mp h with h1 | h1
    · subst h1; exact le_foldl_max_base xs _
    · exact le_foldl_max_mem xs x a h1

lemma generationStep_preserves (f : γ → ℚ) (n : Nat) (hn : 1 ≤ n)
    (st : EngineState γ) (off : List (Individual γ))
    (hne : st.population ≠ []) (hall : allEvaluated st) :
    (generationStep f n st off).population ≠ [] ∧
      allEvaluated (generationStep f n st off) := by
  have hcomb : (st.population.map (fun ind => { ind with age := ind.age + 1 }) ++
      (evalPopulation f off st.bestIndividual).1) ≠ [] := by
    intro hcon
    rcases List.append_eq_nil.mp hcon with ⟨h1, _⟩
    exact hne (List.map_eq_nil.mp h1)
  obtain ⟨h, t, hs, hmem, hmax⟩ := sortByFitnessDesc_head_max _ hcomb
  have hmemcomb : ∀ x, x ∈ sortByFitnessDesc
      (st.population.map (fun ind => { ind with age := ind.age + 1 }) ++
        (evalPopulation f off st.bestIndividual).1) →
      x.fitness ≠ none := by
    intro x hx
    have hx' := (sortByFitnessDesc_perm _).subset hx
    rcases List.mem_append.mp hx' with h1 | h1
    · obtain ⟨ind0, hind0, rfl⟩ := List.mem_map.mp h1
      exact hall ind0 hind0
    · exact evalPopulation_all_some f off st.bestIndividual x h1
  constructor
  · show (plusSelection n _ _) ≠ []
    rw [plusSelection, hs]
    obtain ⟨m, rfl⟩ := Nat.exists_eq_add_of_le hn
    rw [Nat.add_comm, List.take_succ_cons]
    exact List.cons_ne_nil _ _
  · intro ind hind
    have h1 : ind ∈ sortByFitnessDesc
        (st.population.map (fun ind => { ind with age := ind.age + 1 }) ++
          (evalPopulation f off st.bestIndividual).1) :=
      List.mem_of_mem_take hind
    exact hmemcomb ind h1

lemma generationStep_popBest (f : γ → ℚ) (n : Nat) (hn : 1 ≤ n)
    (st : EngineState γ) (off : List (Individual γ)) (hall : allEvaluated st) :
    obLe (popBestFit st) (popBestFit (generationStep f n st off)) := by
  cases hm : (st.population.filterMap (·.fitness)).max? with
  | none => rw [popBestFit, hm]; trivial
  | some m =>
    have hmmem : m ∈ st.population.filterMap (·.fitness) :=
      List.max?_mem (fun a b => max_choice a b) hm
    obtain ⟨ind0, hind0, hfit0⟩ := List.mem_filterMap.mp hmmem
    have haged0 : ({ ind0 with age := ind0.age + 1 } : Individual γ) ∈
        st.population.map (fun ind => { ind with age := ind.age + 1 }) :=
      List.mem_map.mpr ⟨ind0, hind0, rfl⟩
    have hcomb : (st.population.map (fun ind => { ind with age := ind.age + 1 }) ++
        (evalPopulation f off st.bestIndividual).1) ≠ [] :=
      List.ne_nil_of_mem (List.mem_append_left _ haged0)
    obtain ⟨h, t, hs, hmem, hmax⟩ := sortByFitnessDesc_head_max _ hcomb
    have hhfit : h.fitness ≠ none := by
      rcases List.mem_append.mp hmem with h1 | h1
      · obtain ⟨indh, hindh, rfl⟩ := List.mem_map.mp h1
        exact hall indh hindh
      · exact evalPopulation_all_some f off st.bestIndividual h h1
    obtain ⟨v, hv⟩ := Option.ne_none_iff_exists'.mp hhfit
    have hmle : m ≤ v := by
      have h1 := hmax _ (List.mem_append_left _ haged0)
      simpa [fitKey, hfit0, hv] using h1
    have hhmem : h ∈ plusSelection n
        (st.population.map (fun ind => { ind with age := ind.age + 1 }))
        (evalPopulation f off st.bestIndividual).1 := by
      rw [plusSelection, hs]
      obtain ⟨k, rfl⟩ := Nat.exists_eq_add_of_le hn
      rw [Nat.add_comm, List.take_succ_cons]
      exact List.mem_cons_self _ _
    have hvmem : v ∈ (generationStep f n st off).population.filterMap (·.fitness) :=
      List.mem_filterMap.mpr ⟨h, hhmem, hv⟩
    obtain ⟨M, hM, hvM⟩ := max?_ge_of_mem hvmem
    rw [popBestFit, hm, popBestFit, hM]
    exact le_trans hmle hvM

lemma generationStep_bestFit (f : γ → ℚ) (n : Nat) (st : EngineState γ)
    (off : List (Individual γ)) :
    obLe (bestFit st) (bestFit (generationStep f n st off)) :=
  evalPopulation_best_mono f off st.bestIndividual

lemma runFrom_bestFit (f : γ → ℚ) (n : Nat) (st : EngineState γ)
    (l : List (List (Individual γ))) :
    obLe (bestFit st) (bestFit (runFrom f n st l)) := by
  induction l generalizing st with
  | nil => exact obLe_refl _
  | cons off rest ih =>
    exact obLe_trans (generationStep_bestFit f n st off)
      (ih (generationStep f n st off))

lemma runFrom_preserves (f : γ → ℚ) (n : Nat) (hn : 1 ≤ n)
    (st : EngineState γ) (l : List (List (Individual γ)))
    (hne : st.population ≠ []) (hall : allEvaluated st) :
    (runFrom f n st l).population ≠ [] ∧ allEvaluated (runFrom f n st l) := by
  induction l generalizing st with
  | nil => exact ⟨hne, hall⟩
  | cons off rest ih =>
    obtain ⟨h1, h2⟩ := generationStep_preserves f n hn st off hne hall
    exact ih (generationStep f n st off) h1 h2

lemma runFrom_append (f : γ → ℚ) (n : Nat) (st : EngineState γ)
    (l1 l2 : List (List (Individual γ))) :
    runFrom f n st (l1 ++ l2) = runFrom f n (runFrom f n st l1) l2 :=
  List.foldl_append _ _ _ _

end EngineHelpers

/-- C5: in every engine run that uses plus survivor selection, the
tracked all-time best fitness is non-decreasing across generations —
after any generation it is ≥ its value after every earlier generation —
and the best fitness present in the live population never decreases
from one generation to the next.  The state after `k` generations is
`runFrom f n s0 (offsprings.take k)`, where `offsprings` — the output
of the injected (randomized) reproduction strategy in each generation —
is arbitrary, as are the fitness function `f` and the starting state
(population evaluated, as the engine guarantees before the loop). -/
theorem C5_plus_selection_monotonic {γ : Type} (f : γ → ℚ) (n : Nat)
    (hn : 1 ≤ n) (s0 : EngineState γ) (hne : s0.population ≠ [])
    (hall : allEvaluated s0) (offsprings : List (List (Individual γ))) :
    (∀ i j, i ≤ j →
      obLe (bestFit (runFrom f n s0 (offsprings.take i)))
        (bestFit (runFrom f n s0 (offsprings.take j)))) ∧
    (∀ k,
      obLe (popBestFit (runFrom f n s0 (offsprings.take k)))
        (popBestFit (runFrom f n s0 (offsprings.take (k + 1))))) := by
  constructor
  · intro i j hij
    have hsplit : offsprings.take j =
        offsprings.take i ++ (offsprings.take j).drop i := by
      conv_lhs => rw [← List.take_append_drop i (offsprings.take j)]
      rw [List.take_take, min_eq_left hij]
    rw [hsplit, runFrom_append]
    exact runFrom_bestFit f n _ _
  · intro k
    rw [List.take_succ]
    cases hk : offsprings[k]? with
    | none =>
      rw [Option.toList_none, List.append_nil]
      exact obLe_refl _
    | some off =>
      rw [Option.toList_some, runFrom_append]
      have hP := runFrom_preserves f n hn s0 (offsprings.take k) hne hall
      exact generationStep_popBest f n hn _ off hP.2

/-- C5 witness: one generation with `population_size = 1` on a concrete
evaluated starting state. -/
theorem C5_plus_selection_monotonic_witness :
    1 ≤ 1 ∧
    ((⟨[⟨0, some 1, 0⟩], some ⟨0, some 1, 0⟩, 0⟩ :
        EngineState ℕ).population ≠ [] ∧
      allEvaluated (⟨[⟨0, some 1, 0⟩], some ⟨0, some 1, 0⟩, 0⟩ :
        EngineState ℕ)) ∧
    obLe
      (bestFit (runFrom (fun (x : ℕ) => (x : ℚ)) 1
        (⟨[⟨0, some 1, 0⟩], some ⟨0, some 1, 0⟩, 0⟩ : EngineState ℕ)
        (([[⟨2, none, 0⟩]] : List (List (Individual ℕ))).take 0)))
      (bestFit (runFrom (fun (x : ℕ) => (x : ℚ)) 1
        (⟨[⟨0, some 1, 0⟩], some ⟨0, some 1, 0⟩, 0⟩ : EngineState ℕ)
        (([[⟨2, none, 0⟩]] : List (List (Individual ℕ))).take 1))) ∧
    obLe
      (popBestFit (runFrom (fun (x : ℕ) => (x : ℚ)) 1
        (⟨[⟨0, some 1, 0⟩], some ⟨0, some 1, 0⟩, 0⟩ : EngineState ℕ)
        (([[⟨2, none, 0⟩]] : List (List (Individual ℕ))).take 0)))
      (popBestFit (runFrom (fun (x : ℕ) => (x : ℚ)) 1
        (⟨[⟨0, some 1, 0⟩], some ⟨0, some 1, 0⟩, 0⟩ : EngineState ℕ)
        (([[⟨2, none, 0⟩]] : List (List (Individual ℕ))).take (0 + 1)))) := by
  have hne : (⟨[⟨0, some 1, 0⟩], some ⟨0, some 1, 0⟩, 0⟩ :
      EngineState ℕ).population ≠ [] := by
    intro h
    cases h
  have hall : allEvaluated (⟨[⟨0, some 1, 0⟩], some ⟨0, some 1, 0⟩, 0⟩ :
      EngineState ℕ) := by
    intro ind hind
    rcases List.mem_cons.mp hind with h | h
    · subst h; simp
    · cases h
  refine ⟨le_refl 1, ⟨hne, hall⟩, ?_, ?_⟩
  · exact (C5_plus_selection_monotonic (fun (x : ℕ) => (x : ℚ)) 1 (le_refl 1) _
      hne hall [[⟨2, none, 0⟩]]).1 0 1 (by omega)
  · exact (C5_plus_selection_monotonic (fun (x : ℕ) => (x : ℚ)) 1 (le_refl 1) _
      hne hall [[⟨2, none, 0⟩]]).2 0

/-! ## Claim theorems: error handling and selection (C1, C4, C7, C8, C9, C10) -/

/-- C1 (counterexample): on parent1 `[1,2,3,4,5,6,7,8]`, parent2
`[3,7,5,1,6,8,2,4]`, cut points `start = 3`, `end = 5`, the ordered
crossover child-creation step does **not** return the genotype
`[3,7,8,4,5,6,1,2]` asserted by the claim. -/
theorem C1_counterexample :
    createChild [1,2,3,4,5,6,7,8] [3,7,5,1,6,8,2,4] 3 5 ≠
      [some 3, some 7, some 8, some 4, some 5, some 6, some 1, some 2] := by
  decide

/-- C1 (amended): on parent1 `[1,2,3,4,5,6,7,8]`, parent2
`[3,7,5,1,6,8,2,4]`, cut points `start = 3`, `end = 5` (inclusive), the
ordered-crossover child-creation step with parent1 as swath donor
returns exactly the genotype `[7,1,8,4,5,6,2,3]`: the swath `[4,5,6]`
verbatim at positions 3–5, the remaining positions filled circularly
from parent2 starting after the swath (walking parent2 from index 6:
2, skip 4, 3, 7, skip 5, 1, skip 6, 8, written at positions
6, 7, 0, 1, 2), skipping genes already placed. -/
theorem C1_ordered_crossover_concrete :
    createChild [1,2,3,4,5,6,7,8] [3,7,5,1,6,8,2,4] 3 5 =
      [some 7, some 1, some 8, some 4, some 5, some 6, some 2, some 3] := by
  decide

/-- C4: comma survivor selection with fewer offspring than
`population_size` returns the capacity error, raised before sorting
(the error branch precedes the sort, so no partial result and no
mutation of the offspring list); with enough offspring it returns the
top `population_size` offspring by fitness descending — a result that
is independent of the old population, has exactly `population_size`
elements, is sorted descending, and dominates every discarded
offspring. -/
theorem C4_comma_selection {γ : Type} (n : Nat)
    (oldPop offspring : List (Individual γ)) :
    (offspring.length < n →
      commaSelection n oldPop offspring =
        Except.error "comma selection requires lambda to be >= mu") ∧
    (n ≤ offspring.length →
      commaSelection n oldPop offspring =
        Except.ok ((sortByFitnessDesc offspring).take n) ∧
      ((sortByFitnessDesc offspring).take n).length = n ∧
      ((sortByFitnessDesc offspring).take n).Pairwise
        (fun a b => fitKey b ≤ fitKey a) ∧
      (∀ x ∈ (sortByFitnessDesc offspring).take n,
        ∀ y ∈ (sortByFitnessDesc offspring).drop n, fitKey y ≤ fitKey x)) ∧
    (∀ oldPop', commaSelection n oldPop offspring =
      commaSelection n oldPop' offspring) := by
  refine ⟨?_, ?_, ?_⟩
  · intro h
    simp [commaSelection, h]
  · intro h
    refine ⟨by simp [commaSelection, Nat.not_lt.mpr h], ?_, ?_, ?_⟩
    · rw [List.length_take, (sortByFitnessDesc_perm offspring).length_eq]
      omega
    · exact (sortByFitnessDesc_sorted offspring).sublist (List.take_sublist _ _)
    · exact sortByFitnessDesc_take_drop offspring n
  · intro _
    rfl

/-- C4 witness: concrete instantiation (`population_size = 2`, one
offspring triggers the error; three offspring succeed). -/
theorem C4_comma_selection_witness :
    ([(⟨0, some 1, 0⟩ : Individual ℕ)].length < 2 ∧
      commaSelection 2 [] [(⟨0, some 1, 0⟩ : Individual ℕ)] =
        Except.error "comma selection requires lambda to be >= mu") ∧
    (2 ≤ ([⟨0, some 1, 0⟩, ⟨1, some 3, 0⟩, ⟨2, some 2, 0⟩] :
        List (Individual ℕ)).length ∧
      commaSelection 2 [] ([⟨0, some 1, 0⟩, ⟨1, some 3, 0⟩, ⟨2, some 2, 0⟩] :
        List (Individual ℕ)) =
        Except.ok ((sortByFitnessDesc
          ([⟨0, some 1, 0⟩, ⟨1, some 3, 0⟩, ⟨2, some 2, 0⟩] :
            List (Individual ℕ))).take 2)) := by
  constructor
  · exact ⟨by decide, (C4_comma_selection 2 [] _).1 (by decide)⟩
  · exact ⟨by decide, ((C4_comma_selection 2 [] _).2.1 (by decide)).1⟩

/-- C7 (counterexample): constructing the engine with
`population_size = 0` does **not** raise — `EvolutionaryAlgorithm.__init__`
contains no validation, so construction succeeds. -/
theorem C7_counterexample :
    engineInit 0 = Except.ok { populationSize := 0, currentGeneration := 0 } := by
  rfl

/-- C7 (amended): `TournamentSelection` with `k ≤ 0` raises the
configuration error eagerly at strategy construction, before any run;
the engine performs **no** `population_size` validation at construction —
`EvolutionaryAlgorithm.__init__` succeeds for every `population_size`,
non-positive values included. -/
theorem C7_construction_validation (k p : Int) (hk : k ≤ 0) :
    tournamentInit k = Except.error "Tournament size k must be greater than 0" ∧
    engineInit p = Except.ok { populationSize := p, currentGeneration := 0 } := by
  constructor
  · simp [tournamentInit, hk]
  · rfl

/-- C7 witness: `k = 0` rejected at construction, `population_size = -5`
accepted. -/
theorem C7_construction_validation_witness :
    (0 : Int) ≤ 0 ∧
    tournamentInit 0 = Except.error "Tournament size k must be greater than 0" ∧
    engineInit (-5) =
      Except.ok { populationSize := -5, currentGeneration := 0 } :=
  ⟨by decide, C7_construction_validation 0 (-5) (by decide)⟩

/-- C9: the statistics step `_update_history_and_log` is a no-op when
the live population is empty or carries no fitness value: the History
is returned unchanged (nothing appended to any of the five lists) and
the logger callback is not invoked (`none`). -/
theorem C9_statistics_noop {γ : Type} (stdFn : List ℚ → ℚ)
    (population : List (Individual γ)) (history : History) (generation : Nat)
    (h : population = [] ∨ population.filterMap (·.fitness) = []) :
    updateHistoryAndLog stdFn population history generation = (history, none) := by
  rcases h with h | h
  · simp [updateHistoryAndLog, h]
  · rcases heq : population with _ | ⟨ind, rest⟩
    · simp [updateHistoryAndLog]
    · rw [heq] at h
      simp only [updateHistoryAndLog, List.isEmpty_cons, h]
      simp

/-- C9 witness: a singleton population whose only candidate is
unevaluated leaves the history untouched and the logger silent. -/
theorem C9_statistics_noop_witness :
    (([⟨0, none, 0⟩] : List (Individual ℕ)) = [] ∨
      ([⟨0, none, 0⟩] : List (Individual ℕ)).filterMap (·.fitness) = []) ∧
    updateHistoryAndLog (fun _ => 0) ([⟨0, none, 0⟩] : List (Individual ℕ))
        ⟨[], [], [], [], []⟩ 7 = (⟨[], [], [], [], []⟩, none) :=
  ⟨Or.inr rfl,
    C9_statistics_noop (fun _ => 0) [⟨0, none, 0⟩] ⟨[], [], [], [], []⟩ 7
      (Or.inr rfl)⟩

/-- C10: a non-empty population strictly smaller than the tournament
size makes `TournamentSelection.__call__` raise (the `random.sample`
of `k` distinct candidates fails) for every sampling oracle — no parent
list is returned; only the empty population is special-cased to return
an empty parent sequence. -/
theorem C10_tournament_undersized {γ : Type} (k : Nat)
    (pop : List (Individual γ)) (sample : Nat → List (Individual γ)) :
    (pop ≠ [] → pop.length < k →
      tournamentCall k pop sample =
        Except.error "Sample larger than population or is negative") ∧
    tournamentCall k ([] : List (Individual γ)) sample = Except.ok [] := by
  constructor
  · intro hne hlt
    rcases heq : pop with _ | ⟨x, rest⟩
    · exact absurd heq hne
    · rw [heq] at hlt
      have hlt' : rest.length + 1 < k := by simpa using hlt
      simp only [tournamentCall, List.length_cons, Nat.succ_ne_zero, if_false,
        List.range_succ_eq_map, List.foldlM_cons, if_pos hlt']
      rfl
  · simp [tournamentCall]

/-- C10 witness: one candidate, tournament size 2. -/
theorem C10_tournament_undersized_witness :
    (([⟨0, some 1, 0⟩] : List (Individual ℕ)) ≠ [] ∧
      ([⟨0, some 1, 0⟩] : List (Individual ℕ)).length < 2 ∧
      tournamentCall 2 ([⟨0, some 1, 0⟩] : List (Individual ℕ)) (fun _ => []) =
        Except.error "Sample larger than population or is negative") ∧
    tournamentCall 2 ([] : List (Individual ℕ)) (fun _ => []) = Except.ok [] :=
  ⟨⟨by decide, by decide,
      (C10_tournament_undersized 2 [⟨0, some 1, 0⟩] (fun _ => [])).1
        (by decide) (by decide)⟩,
    (C10_tournament_undersized 2 [] (fun _ => [])).2⟩

/-- C8: age-bounded plus selection returns exactly the top
`min(population_size, E)` candidates by fitness descending, where `E`
counts the candidates of the combined pool whose age does not exceed
`max_age`; every survivor respects the age bound, the result is the
descending-sorted eligible pool truncated at `population_size`
(dominating every eligible candidate it drops), and when fewer than
`population_size` candidates pass the filter the result is smaller than
`population_size` — no backfill. -/
theorem C8_age_based_selection {γ : Type} (n : Nat) (maxAge : Int)
    (oldPop offspring : List (Individual γ)) :
    (plusAgeBasedSelection n maxAge oldPop offspring).length =
      min n ((oldPop ++ offspring).filter
        (fun ind => (ind.age : Int) ≤ maxAge)).length ∧
    (∀ ind ∈ plusAgeBasedSelection n maxAge oldPop offspring,
      (ind.age : Int) ≤ maxAge) ∧
    plusAgeBasedSelection n maxAge oldPop offspring =
      (sortByFitnessDesc ((oldPop ++ offspring).filter
        (fun ind => (ind.age : Int) ≤ maxAge))).take n ∧
    (plusAgeBasedSelection n maxAge oldPop offspring).Pairwise
      (fun a b => fitKey b ≤ fitKey a) ∧
    (∀ x ∈ plusAgeBasedSelection n maxAge oldPop offspring,
      ∀ y ∈ (sortByFitnessDesc ((oldPop ++ offspring).filter
        (fun ind => (ind.age : Int) ≤ maxAge))).drop n, fitKey y ≤ fitKey x) := by
  refine ⟨?_, ?_, rfl, ?_, ?_⟩
  · rw [plusAgeBasedSelection, List.length_take,
      (sortByFitnessDesc_perm _).length_eq]
  · intro ind hmem
    have h1 : ind ∈ sortByFitnessDesc ((oldPop ++ offspring).filter
        (fun ind => (ind.age : Int) ≤ maxAge)) :=
      List.mem_of_mem_take hmem
    have h2 := (sortByFitnessDesc_perm _).mem_iff.mp h1
    simpa using (List.mem_filter.mp h2).2
  · exact (sortByFitnessDesc_sorted _).sublist (List.take_sublist _ _)
  · exact sortByFitnessDesc_take_drop _ n

/-- C8 witness: `population_size = 2`, `max_age = 1`; an over-age elite
is evicted and the population shrinks to the eligible pool. -/
theorem C8_age_based_selection_witness :
    (plusAgeBasedSelection 2 1 ([⟨0, some 9, 2⟩] : List (Individual ℕ))
        ([⟨1, some 1, 0⟩] : List (Individual ℕ))).length =
      min 2 ((([⟨0, some 9, 2⟩] : List (Individual ℕ)) ++
          ([⟨1, some 1, 0⟩] : List (Individual ℕ))).filter
        (fun (ind : Individual ℕ) => (ind.age : Int) ≤ 1)).length ∧
    (∀ ind ∈ plusAgeBasedSelection 2 1 ([⟨0, some 9, 2⟩] : List (Individual ℕ))
        ([⟨1, some 1, 0⟩] : List (Individual ℕ)), (ind.age : Int) ≤ 1) :=
  ⟨(C8_age_based_selection 2 1 [⟨0, some 9, 2⟩] [⟨1, some 1, 0⟩]).1,
    (C8_age_based_selection 2 1 [⟨0, some 9, 2⟩] [⟨1, some 1, 0⟩]).2.1⟩

end EvolvePy
